import Mathlib

/-!
Verification of the recipe-management REST API (`the-anand/recipe-api`).

The development shallowly embeds the repository's data model and the
serializer logic of `app/recipe/serializers.py` (the nested-relation
reconciler), together with the view layer and user registration, which are
modelled from the specification where the corresponding source files are not
part of the provided sources.  Database tables are lists of records, the
persistent store is a `Db` structure threaded explicitly, and fallible
operations return `Except`.
-/

deriving instance DecidableEq for Except

namespace RecipeApi

/-- Account ids; Django primary keys are integers. -/
abbrev UserId := Nat

/-- An account row of the user table (`core.models.User`): email, hashed
password, display name. Staff/superuser flags play no role in any claim. -/
structure Account where
  id : Nat
  email : String
  passwordHash : String
  name : String
deriving DecidableEq

/-- A row of the tag table (`core.models.Tag`): `{id, user, name}`. -/
structure Tag where
  id : Nat
  user : UserId
  name : String
deriving DecidableEq

/-- A row of the ingredient table (`core.models.Ingredient`). -/
structure Ingredient where
  id : Nat
  user : UserId
  name : String
deriving DecidableEq

/-- A row of the recipe table (`core.models.Recipe`) together with its
many-to-many association sets, held as lists of tag/ingredient ids.
`price` (a fixed-point decimal) is modelled as an integer number of minimal
currency units. -/
structure Recipe where
  id : Nat
  user : UserId
  title : String
  time_minutes : Nat
  price : Int
  link : String
  description : String
  tags : List Nat
  ingredients : List Nat
deriving DecidableEq

/-- The persistent store: one list per table plus the primary-key
sequences. -/
structure Db where
  accounts : List Account
  tags : List Tag
  ingredients : List Ingredient
  recipes : List Recipe
  nextAccountId : Nat
  nextTagId : Nat
  nextIngredientId : Nat
  nextRecipeId : Nat
deriving DecidableEq

/-- The row predicate used by `Tag.objects.get_or_create(user=u, name=n)`
and by the per-account tag queries. -/
def tagMatch (u : UserId) (n : String) (t : Tag) : Bool :=
  t.user == u && t.name == n

/-- The row predicate used by
`Ingredient.objects.get_or_create(user=u, name=n)`. -/
def ingMatch (u : UserId) (n : String) (i : Ingredient) : Bool :=
  i.user == u && i.name == n

/-- Number of tag rows of account `u` named `n`. -/
def countTags (db : Db) (u : UserId) (n : String) : Nat :=
  (db.tags.filter (tagMatch u n)).length

/-- Number of ingredient rows of account `u` named `n`. -/
def countIngs (db : Db) (u : UserId) (n : String) : Nat :=
  (db.ingredients.filter (ingMatch u n)).length

/-- Embeds Django's `Tag.objects.get_or_create(user=u, name=n)`: return the
unique matching row if there is exactly one; insert a fresh row when there is
none; raise `MultipleObjectsReturned` when several rows match (no uniqueness
constraint exists on `(user, name)`). -/
def tagGetOrCreate (db : Db) (u : UserId) (n : String) :
    Except String (Tag × Db) :=
  match db.tags.filter (tagMatch u n) with
  | [] =>
      let t : Tag := ⟨db.nextTagId, u, n⟩
      .ok (t, { db with tags := db.tags ++ [t], nextTagId := db.nextTagId + 1 })
  | [t] => .ok (t, db)
  | _ => .error "MultipleObjectsReturned"

/-- Embeds Django's `Ingredient.objects.get_or_create(user=u, name=n)`. -/
def ingGetOrCreate (db : Db) (u : UserId) (n : String) :
    Except String (Ingredient × Db) :=
  match db.ingredients.filter (ingMatch u n) with
  | [] =>
      let i : Ingredient := ⟨db.nextIngredientId, u, n⟩
      .ok (i, { db with ingredients := db.ingredients ++ [i],
                        nextIngredientId := db.nextIngredientId + 1 })
  | [i] => .ok (i, db)
  | _ => .error "MultipleObjectsReturned"

/-- Embeds the many-to-many `add`: inserting an id already present is a
no-op. -/
def m2mAdd (assoc : List Nat) (i : Nat) : List Nat :=
  if i ∈ assoc then assoc else assoc ++ [i]

/-- Embeds `RecipeSerializer._get_or_create_tags`: for each descriptor name,
get-or-create the tag scoped to the authenticated user and add it to the
recipe's tag set (`assoc`).  The store and the association set are threaded
through the loop. -/
def get_or_create_tags (authUser : UserId) :
    Db → List String → List Nat → Except String (List Nat × Db)
  | db, [], assoc => .ok (assoc, db)
  | db, n :: rest, assoc =>
    match tagGetOrCreate db authUser n with
    | .ok (t, db1) => get_or_create_tags authUser db1 rest (m2mAdd assoc t.id)
    | .error e => .error e

/-- Embeds `RecipeSerializer._get_or_create_ingredients`. -/
def get_or_create_ingredients (authUser : UserId) :
    Db → List String → List Nat → Except String (List Nat × Db)
  | db, [], assoc => .ok (assoc, db)
  | db, n :: rest, assoc =>
    match ingGetOrCreate db authUser n with
    | .ok (i, db1) =>
        get_or_create_ingredients authUser db1 rest (m2mAdd assoc i.id)
    | .error e => .error e

/-- Write back a recipe row by primary key (the effect of `instance.save()`
and of the association writes on the stored row). -/
def setRecipe (db : Db) (r : Recipe) : Db :=
  { db with recipes := db.recipes.map (fun x => if x.id == r.id then r else x) }

/-- Validated data for `RecipeSerializer.create`: the writable scalar fields
plus the nested descriptor lists, which default to `[]` when absent
(`validated_data.pop('tags', [])`). A descriptor `{"name": ...}` is just its
name string, since `TagSerializer`/`IngredientSerializer` expose only the
writable field `name`. -/
structure RecipeCreateData where
  title : String
  time_minutes : Nat
  price : Int
  link : String
  description : String
  tags : List String
  ingredients : List String
deriving DecidableEq

/-- Validated data for `RecipeSerializer.update` (PATCH/PUT): every writable
field is optional; `none` means the key was absent from the request. -/
structure RecipePayload where
  title : Option String
  time_minutes : Option Nat
  price : Option Int
  link : Option String
  description : Option String
  tags : Option (List String)
  ingredients : Option (List String)
deriving DecidableEq

/-- The fresh recipe row built by `Recipe.objects.create(**validated_data)`
inside `RecipeSerializer.create`, owned by the authenticated user. -/
def newRecipeRow (db : Db) (authUser : UserId) (d : RecipeCreateData) :
    Recipe :=
  { id := db.nextRecipeId, user := authUser, title := d.title,
    time_minutes := d.time_minutes, price := d.price, link := d.link,
    description := d.description, tags := [], ingredients := [] }

/-- The store after `Recipe.objects.create(**validated_data)`: the fresh row
is appended and the sequence advances. -/
def insertRecipeRow (db : Db) (authUser : UserId) (d : RecipeCreateData) :
    Db :=
  { db with recipes := db.recipes ++ [newRecipeRow db authUser d],
            nextRecipeId := db.nextRecipeId + 1 }

/-- Embeds `RecipeSerializer.create`: pop the descriptor lists, create the
recipe row from the scalar fields with the authenticated user as owner, then
reconcile tags and ingredients starting from empty association sets. -/
def serializerCreate (db : Db) (authUser : UserId) (d : RecipeCreateData) :
    Except String (Recipe × Db) :=
  match get_or_create_tags authUser (insertRecipeRow db authUser d)
      d.tags [] with
  | .error e => .error e
  | .ok (tagAssoc, db1) =>
    match get_or_create_ingredients authUser db1 d.ingredients [] with
    | .error e => .error e
    | .ok (ingAssoc, db2) =>
      let r : Recipe := { (newRecipeRow db authUser d) with
        tags := tagAssoc, ingredients := ingAssoc }
      .ok (r, setRecipe db2 r)

/-- The `tags = validated_data.pop('tags', None); if tags is not None: ...`
step of `RecipeSerializer.update`: when the field is absent the association
set is kept; when present (even `[]`) the set is cleared and reconciled from
the provided list. -/
def updTagsStep (db : Db) (authUser : UserId) (inst : Recipe)
    (p : RecipePayload) : Except String (List Nat × Db) :=
  match p.tags with
  | none => .ok (inst.tags, db)
  | some names => get_or_create_tags authUser db names []

/-- The corresponding `ingredients` step of `RecipeSerializer.update`,
running after the tags step on the store it produced. -/
def updIngsStep (db : Db) (authUser : UserId) (inst : Recipe)
    (p : RecipePayload) : Except String (List Nat × Db) :=
  match p.ingredients with
  | none => .ok (inst.ingredients, db)
  | some names => get_or_create_ingredients authUser db names []

/-- Embeds `RecipeSerializer.update`: pop `tags`; when present (even `[]`)
clear the association set and reconcile from the provided list; likewise for
`ingredients`; then assign the remaining provided scalar fields and save. -/
def serializerUpdate (db : Db) (authUser : UserId) (inst : Recipe)
    (p : RecipePayload) : Except String (Recipe × Db) :=
  match updTagsStep db authUser inst p with
  | .error e => .error e
  | .ok (tagAssoc, db1) =>
    match updIngsStep db1 authUser inst p with
    | .error e => .error e
    | .ok (ingAssoc, db2) =>
      let r : Recipe := { inst with
        title := p.title.getD inst.title,
        time_minutes := p.time_minutes.getD inst.time_minutes,
        price := p.price.getD inst.price,
        link := p.link.getD inst.link,
        description := p.description.getD inst.description,
        tags := tagAssoc, ingredients := ingAssoc }
      .ok (r, setRecipe db2 r)

/-- HTTP-level error outcomes relevant to the claims.  `notFound` is 404,
`forbidden` is 403 (never produced by the modelled API), `badRequest` is 400,
`serverError` is 500. -/
inductive ApiError where
  | notFound
  | forbidden
  | badRequest
  | serverError
deriving DecidableEq

/-- Modelled from the spec: the view-layer queryset scoping (`views.py` is
not among the provided sources) — every list/detail operation implicitly
filters to the caller's own records. -/
def ownedRecipes (db : Db) (u : UserId) : List Recipe :=
  db.recipes.filter (fun r => r.user == u)

/-- Modelled from the spec: detail lookup inside the caller-scoped queryset;
a miss (including another account's record) is a not-found. -/
def findOwnedRecipe (db : Db) (u : UserId) (rid : Nat) : Option Recipe :=
  (ownedRecipes db u).find? (fun r => r.id == rid)

/-- Modelled from the spec: caller-scoped tag queryset. -/
def ownedTags (db : Db) (u : UserId) : List Tag :=
  db.tags.filter (fun t => t.user == u)

/-- Modelled from the spec: caller-scoped tag detail lookup. -/
def findOwnedTag (db : Db) (u : UserId) (tid : Nat) : Option Tag :=
  (ownedTags db u).find? (fun t => t.id == tid)

/-- Modelled from the spec: caller-scoped ingredient queryset. -/
def ownedIngs (db : Db) (u : UserId) : List Ingredient :=
  db.ingredients.filter (fun i => i.user == u)

/-- Modelled from the spec: caller-scoped ingredient detail lookup. -/
def findOwnedIng (db : Db) (u : UserId) (iid : Nat) : Option Ingredient :=
  (ownedIngs db u).find? (fun i => i.id == iid)

/-- Modelled from the spec: recipe create endpoint; `perform_create` saves
the serializer with the authenticated user as owner, and the request is one
all-or-nothing write unit (spec section 5), so an error returns the
pre-request store. -/
def runCreateRecipe (db : Db) (u : UserId) (d : RecipeCreateData) :
    Except ApiError Recipe × Db :=
  match serializerCreate db u d with
  | .ok (r, db') => (.ok r, db')
  | .error _ => (.error .serverError, db)

/-- Modelled from the spec: recipe update endpoint (PATCH, and PUT when
every field is provided).  The instance is looked up in the caller-scoped
queryset (missing or foreign record gives 404); the serializer update runs
as one all-or-nothing write unit, so a reconciliation error returns the
pre-request store. -/
def runUpdateRecipe (db : Db) (u : UserId) (rid : Nat) (p : RecipePayload) :
    Except ApiError Recipe × Db :=
  match findOwnedRecipe db u rid with
  | none => (.error .notFound, db)
  | some inst =>
    match serializerUpdate db u inst p with
    | .ok (r, db') => (.ok r, db')
    | .error _ => (.error .serverError, db)

/-- Modelled from the spec: recipe detail retrieval, caller-scoped. -/
def runDetailRecipe (db : Db) (u : UserId) (rid : Nat) :
    Except ApiError Recipe :=
  match findOwnedRecipe db u rid with
  | none => .error .notFound
  | some r => .ok r

/-- Modelled from the spec: recipe delete endpoint, caller-scoped. -/
def runDeleteRecipe (db : Db) (u : UserId) (rid : Nat) :
    Except ApiError Unit × Db :=
  match findOwnedRecipe db u rid with
  | none => (.error .notFound, db)
  | some r =>
      (.ok (), { db with recipes := db.recipes.filter (fun x => x.id != r.id) })

/-- Modelled from the spec: direct tag creation (`POST /recipe/tags`) with
the caller as owner. -/
def runCreateTag (db : Db) (u : UserId) (n : String) : Tag × Db :=
  let t : Tag := ⟨db.nextTagId, u, n⟩
  (t, { db with tags := db.tags ++ [t], nextTagId := db.nextTagId + 1 })

/-- Modelled from the spec: tag rename (`PATCH /recipe/tags/{id}`),
caller-scoped; a foreign or missing id gives 404 and leaves the store
unchanged. -/
def runPatchTag (db : Db) (u : UserId) (tid : Nat) (newName : String) :
    Except ApiError Tag × Db :=
  match findOwnedTag db u tid with
  | none => (.error .notFound, db)
  | some t =>
      let t' : Tag := { t with name := newName }
      (.ok t', { db with
        tags := db.tags.map (fun x => if x.id == tid then t' else x) })

/-- Modelled from the spec: tag delete, caller-scoped; deletion cascades to
the many-to-many association rows. -/
def runDeleteTag (db : Db) (u : UserId) (tid : Nat) :
    Except ApiError Unit × Db :=
  match findOwnedTag db u tid with
  | none => (.error .notFound, db)
  | some _ =>
      (.ok (), { db with
        tags := db.tags.filter (fun x => x.id != tid),
        recipes := db.recipes.map
          (fun r => { r with tags := r.tags.filter (fun i => i != tid) }) })

/-- Modelled from the spec: tag detail retrieval, caller-scoped. -/
def runDetailTag (db : Db) (u : UserId) (tid : Nat) : Except ApiError Tag :=
  match findOwnedTag db u tid with
  | none => .error .notFound
  | some t => .ok t

/-- Modelled from the spec: direct ingredient creation with the caller as
owner. -/
def runCreateIng (db : Db) (u : UserId) (n : String) : Ingredient × Db :=
  let i : Ingredient := ⟨db.nextIngredientId, u, n⟩
  (i, { db with ingredients := db.ingredients ++ [i],
                nextIngredientId := db.nextIngredientId + 1 })

/-- Modelled from the spec: ingredient rename, caller-scoped. -/
def runPatchIng (db : Db) (u : UserId) (iid : Nat) (newName : String) :
    Except ApiError Ingredient × Db :=
  match findOwnedIng db u iid with
  | none => (.error .notFound, db)
  | some i =>
      let i' : Ingredient := { i with name := newName }
      (.ok i', { db with
        ingredients := db.ingredients.map (fun x => if x.id == iid then i' else x) })

/-- Modelled from the spec: ingredient delete, caller-scoped, cascading to
the association rows. -/
def runDeleteIng (db : Db) (u : UserId) (iid : Nat) :
    Except ApiError Unit × Db :=
  match findOwnedIng db u iid with
  | none => (.error .notFound, db)
  | some _ =>
      (.ok (), { db with
        ingredients := db.ingredients.filter (fun x => x.id != iid),
        recipes := db.recipes.map
          (fun r => { r with
            ingredients := r.ingredients.filter (fun i => i != iid) }) })

/-- Modelled from the spec: ingredient detail retrieval, caller-scoped. -/
def runDetailIng (db : Db) (u : UserId) (iid : Nat) :
    Except ApiError Ingredient :=
  match findOwnedIng db u iid with
  | none => .error .notFound
  | some i => .ok i

/-- Insert into a list sorted by the boolean comparator `le`. -/
def insertBy (le : α → α → Bool) (a : α) : List α → List α
  | [] => [a]
  | b :: l => if le a b then a :: b :: l else b :: insertBy le a l

/-- Insertion sort by the boolean comparator `le`; models the store's
`order_by` clauses. -/
def sortBy (le : α → α → Bool) : List α → List α
  | [] => []
  | a :: l => insertBy le a (sortBy le l)

/-- Byte-wise lexicographic comparison of char lists; models the store's
case-sensitive collation on name columns. -/
def lexLe : List Char → List Char → Bool
  | [], _ => true
  | _ :: _, [] => false
  | c :: cs, d :: ds =>
    if c.toNat < d.toNat then true
    else if d.toNat < c.toNat then false
    else lexLe cs ds

/-- Byte-wise lexicographic comparison of strings. -/
def strLe (a b : String) : Bool := lexLe a.data b.data

/-- Descending-by-id comparator (`order_by('-id')`). -/
def recipeIdGe (a b : Recipe) : Bool := b.id ≤ a.id

/-- Descending-by-name comparator for tags (`order_by('-name')`). -/
def tagNameGe (a b : Tag) : Bool := strLe b.name a.name

/-- Descending-by-name comparator for ingredients (`order_by('-name')`). -/
def ingNameGe (a b : Ingredient) : Bool := strLe b.name a.name

/-- Modelled from the spec: tag listing with the `assigned_only` flag —
when truthy, only tags referenced by at least one of the caller's recipes
are kept; the result set is de-duplicated and ordered by name descending. -/
def listTags (db : Db) (u : UserId) (assignedOnly : Bool) : List Tag :=
  let base := db.tags.filter (fun t => t.user == u)
  let base :=
    if assignedOnly then
      base.filter (fun t =>
        db.recipes.any (fun r => r.user == u && r.tags.contains t.id))
    else base
  sortBy tagNameGe base.dedup

/-- Modelled from the spec: ingredient listing with `assigned_only`. -/
def listIngs (db : Db) (u : UserId) (assignedOnly : Bool) : List Ingredient :=
  let base := db.ingredients.filter (fun i => i.user == u)
  let base :=
    if assignedOnly then
      base.filter (fun i =>
        db.recipes.any (fun r => r.user == u && r.ingredients.contains i.id))
    else base
  sortBy ingNameGe base.dedup

/-- Parse a decimal numeral from a char list; `none` on the empty list or a
non-digit. -/
def parseNatFrom : List Char → Nat → Option Nat
  | [], acc => some acc
  | c :: cs, acc =>
    if 48 ≤ c.toNat && c.toNat ≤ 57 then
      parseNatFrom cs (acc * 10 + (c.toNat - 48))
    else none

/-- Parse a non-empty decimal numeral. -/
def parseNat (cs : List Char) : Option Nat :=
  match cs with
  | [] => none
  | _ => parseNatFrom cs 0

/-- Split a char list on commas. -/
def splitComma : List Char → List (List Char)
  | [] => [[]]
  | c :: cs =>
    if c = ',' then [] :: splitComma cs
    else
      match splitComma cs with
      | [] => [[c]]
      | g :: gs => (c :: g) :: gs

/-- Modelled from the spec: a `tags`/`ingredients` query parameter is a
comma-separated list of numeric ids; a token that is not a numeral fails the
whole parse. -/
def paramToIds (s : String) : Option (List Nat) :=
  (splitComma s.data).mapM parseNat

/-- Modelled from the spec: recipe listing restricted to the caller, with
optional id-list filters (a recipe matches a given dimension when it has at
least one association among the listed ids; both dimensions must match when
both are given), ordered by id descending. -/
def listRecipesFiltered (db : Db) (u : UserId)
    (tagIds ingIds : Option (List Nat)) : List Recipe :=
  let base := db.recipes.filter (fun r => r.user == u)
  let base := match tagIds with
    | none => base
    | some ids => base.filter (fun r => ids.any (fun i => r.tags.contains i))
  let base := match ingIds with
    | none => base
    | some ids =>
        base.filter (fun r => ids.any (fun i => r.ingredients.contains i))
  sortBy recipeIdGe base

/-- Modelled from the spec: the recipe list endpoint with its raw query
parameters; a malformed id list fails the request (`none`). -/
def listRecipes (db : Db) (u : UserId) (tagsParam ingsParam : Option String) :
    Option (List Recipe) :=
  match tagsParam.map paramToIds, ingsParam.map paramToIds with
  | some none, _ => none
  | _, some none => none
  | some (some tl), some (some il) =>
      some (listRecipesFiltered db u (some tl) (some il))
  | some (some tl), none => some (listRecipesFiltered db u (some tl) none)
  | none, some (some il) => some (listRecipesFiltered db u none (some il))
  | none, none => some (listRecipesFiltered db u none none)

/-- Modelled from the spec: the password hashing collaborator, kept
abstract as an injective tagging of the raw password. -/
def hashPassword (p : String) : String := "pbkdf2-sha256$" ++ p

/-- Response of the registration endpoint: an HTTP status and a flat JSON
object as a key-value list. -/
structure RegisterResponse where
  status : Nat
  body : List (String × String)
deriving DecidableEq

/-- Modelled from the spec: `POST /user/create` — 400 when the email is
already registered or the password is shorter than 5 characters (no account
row is created in either case); otherwise create the account and answer 201
with `{id, email, name}`, never echoing the password. -/
def registerUser (db : Db) (email password name : String) :
    RegisterResponse × Db :=
  if db.accounts.any (fun a => a.email == email) then
    ({ status := 400, body := [] }, db)
  else if password.length < 5 then
    ({ status := 400, body := [] }, db)
  else
    let a : Account := ⟨db.nextAccountId, email, hashPassword password, name⟩
    ({ status := 201,
       body := [("id", toString a.id), ("email", email), ("name", name)] },
     { db with accounts := db.accounts ++ [a],
               nextAccountId := db.nextAccountId + 1 })

/-- The raw JSON body of a recipe PATCH/PUT before validation: it may carry
a `user` key, which is not among `RecipeSerializer.Meta.fields`. -/
structure RawRecipePatch where
  title : Option String
  time_minutes : Option Nat
  price : Option Int
  link : Option String
  description : Option String
  tags : Option (List String)
  ingredients : Option (List String)
  user : Option UserId
deriving DecidableEq

/-- Embeds the serializer validation induced by `RecipeSerializer.Meta`
(fields `id, title, time_minutes, price, link, tags, ingredients`, plus
`description` on the detail serializer; `id` read-only): only declared
writable fields reach `validated_data`, so a `user` key is dropped. -/
def validateRecipePatch (raw : RawRecipePatch) : RecipePayload :=
  { title := raw.title, time_minutes := raw.time_minutes, price := raw.price,
    link := raw.link, description := raw.description, tags := raw.tags,
    ingredients := raw.ingredients }

/-- Modelled from the spec: the PATCH endpoint fed with a raw JSON body. -/
def runPatchRecipeRaw (db : Db) (u : UserId) (rid : Nat)
    (raw : RawRecipePatch) : Except ApiError Recipe × Db :=
  runUpdateRecipe db u rid (validateRecipePatch raw)

/-- Tag-row count over a plain list. -/
def countT (l : List Tag) (u : UserId) (n : String) : Nat :=
  (l.filter (tagMatch u n)).length

/-- Ingredient-row count over a plain list. -/
def countI (l : List Ingredient) (u : UserId) (n : String) : Nat :=
  (l.filter (ingMatch u n)).length

theorem countTags_eq (db : Db) (u : UserId) (n : String) :
    countTags db u n = countT db.tags u n := rfl

theorem countIngs_eq (db : Db) (u : UserId) (n : String) :
    countIngs db u n = countI db.ingredients u n := rfl

theorem tagMatch_iff {u : UserId} {n : String} {t : Tag} :
    tagMatch u n t = true ↔ t.user = u ∧ t.name = n := by
  simp [tagMatch]

theorem ingMatch_iff {u : UserId} {n : String} {i : Ingredient} :
    ingMatch u n i = true ↔ i.user = u ∧ i.name = n := by
  simp [ingMatch]

theorem countT_append (l l' : List Tag) (u : UserId) (n : String) :
    countT (l ++ l') u n = countT l u n + countT l' u n := by
  simp [countT, List.filter_append]

theorem countI_append (l l' : List Ingredient) (u : UserId) (n : String) :
    countI (l ++ l') u n = countI l u n + countI l' u n := by
  simp [countI, List.filter_append]

theorem countT_singleton (t : Tag) (u : UserId) (n : String) :
    countT [t] u n = if tagMatch u n t then 1 else 0 := by
  simp only [countT, List.filter]
  cases tagMatch u n t <;> simp

theorem countI_singleton (i : Ingredient) (u : UserId) (n : String) :
    countI [i] u n = if ingMatch u n i then 1 else 0 := by
  simp only [countI, List.filter]
  cases ingMatch u n i <;> simp

theorem countT_eq_zero {l : List Tag} {u : UserId} {n : String} :
    countT l u n = 0 ↔ ∀ t ∈ l, ¬(t.user = u ∧ t.name = n) := by
  simp [countT, List.length_eq_zero, List.filter_eq_nil_iff, tagMatch_iff]

theorem countI_eq_zero {l : List Ingredient} {u : UserId} {n : String} :
    countI l u n = 0 ↔ ∀ i ∈ l, ¬(i.user = u ∧ i.name = n) := by
  simp [countI, List.length_eq_zero, List.filter_eq_nil_iff, ingMatch_iff]

theorem countT_pos_of_match {l : List Tag} {u : UserId} {n : String} {t : Tag}
    (ht : t ∈ l) (hu : t.user = u) (hn : t.name = n) : 0 < countT l u n := by
  have : t ∈ l.filter (tagMatch u n) :=
    List.mem_filter.2 ⟨ht, tagMatch_iff.2 ⟨hu, hn⟩⟩
  exact List.length_pos.2 (List.ne_nil_of_mem this)

theorem countI_pos_of_match {l : List Ingredient} {u : UserId} {n : String}
    {i : Ingredient} (hi : i ∈ l) (hu : i.user = u) (hn : i.name = n) :
    0 < countI l u n := by
  have : i ∈ l.filter (ingMatch u n) :=
    List.mem_filter.2 ⟨hi, ingMatch_iff.2 ⟨hu, hn⟩⟩
  exact List.length_pos.2 (List.ne_nil_of_mem this)

theorem mem_m2mAdd {assoc : List Nat} {i j : Nat} :
    i ∈ m2mAdd assoc j ↔ i ∈ assoc ∨ i = j := by
  unfold m2mAdd
  by_cases h : j ∈ assoc
  · simp only [if_pos h]
    constructor
    · exact Or.inl
    · rintro (hi | rfl)
      · exact hi
      · exact h
  · simp [if_neg h, List.mem_append]

theorem self_mem_m2mAdd (assoc : List Nat) (j : Nat) : j ∈ m2mAdd assoc j :=
  mem_m2mAdd.2 (Or.inr rfl)

theorem sub_m2mAdd (assoc : List Nat) (j : Nat) :
    ∀ i ∈ assoc, i ∈ m2mAdd assoc j := fun _ hi => mem_m2mAdd.2 (Or.inl hi)

theorem nodup_m2mAdd {assoc : List Nat} (j : Nat) (h : assoc.Nodup) :
    (m2mAdd assoc j).Nodup := by
  unfold m2mAdd
  by_cases hj : j ∈ assoc
  · simpa [if_pos hj]
  · rw [if_neg hj]
    simp only [List.nodup_append, List.nodup_cons, List.not_mem_nil,
      not_false_iff, List.nodup_nil, and_true, List.disjoint_singleton]
    exact ⟨h, trivial, hj⟩

theorem tagGetOrCreate_ok {db : Db} {u : UserId} {n : String} {t : Tag}
    {db' : Db} (h : tagGetOrCreate db u n = .ok (t, db')) :
    t.user = u ∧ t.name = n ∧
    ((db.tags.filter (tagMatch u n) = [t] ∧ db' = db) ∨
     (db.tags.filter (tagMatch u n) = [] ∧ t.id = db.nextTagId ∧
      db' = { db with tags := db.tags ++ [t],
                      nextTagId := db.nextTagId + 1 })) := by
  unfold tagGetOrCreate at h
  rcases hf : db.tags.filter (tagMatch u n) with _ | ⟨t0, _ | ⟨t1, rest⟩⟩
  · rw [hf] at h
    simp only [Except.ok.injEq, Prod.mk.injEq] at h
    obtain ⟨rfl, rfl⟩ := h
    exact ⟨rfl, rfl, Or.inr ⟨rfl, rfl, rfl⟩⟩
  · rw [hf] at h
    simp only [Except.ok.injEq, Prod.mk.injEq] at h
    obtain ⟨rfl, rfl⟩ := h
    have hmem : t0 ∈ db.tags.filter (tagMatch u n) := by
      rw [hf]; exact List.mem_singleton_self t0
    have := (List.mem_filter.1 hmem).2
    obtain ⟨hu, hn⟩ := tagMatch_iff.1 this
    exact ⟨hu, hn, Or.inl ⟨rfl, rfl⟩⟩
  · rw [hf] at h
    exact absurd h (by simp)

theorem ingGetOrCreate_ok {db : Db} {u : UserId} {n : String} {i : Ingredient}
    {db' : Db} (h : ingGetOrCreate db u n = .ok (i, db')) :
    i.user = u ∧ i.name = n ∧
    ((db.ingredients.filter (ingMatch u n) = [i] ∧ db' = db) ∨
     (db.ingredients.filter (ingMatch u n) = [] ∧ i.id = db.nextIngredientId ∧
      db' = { db with ingredients := db.ingredients ++ [i],
                      nextIngredientId := db.nextIngredientId + 1 })) := by
  unfold ingGetOrCreate at h
  rcases hf : db.ingredients.filter (ingMatch u n) with _ | ⟨i0, _ | ⟨i1, rest⟩⟩
  · rw [hf] at h
    simp only [Except.ok.injEq, Prod.mk.injEq] at h
    obtain ⟨rfl, rfl⟩ := h
    exact ⟨rfl, rfl, Or.inr ⟨rfl, rfl, rfl⟩⟩
  · rw [hf] at h
    simp only [Except.ok.injEq, Prod.mk.injEq] at h
    obtain ⟨rfl, rfl⟩ := h
    have hmem : i0 ∈ db.ingredients.filter (ingMatch u n) := by
      rw [hf]; exact List.mem_singleton_self i0
    have := (List.mem_filter.1 hmem).2
    obtain ⟨hu, hn⟩ := ingMatch_iff.1 this
    exact ⟨hu, hn, Or.inl ⟨rfl, rfl⟩⟩
  · rw [hf] at h
    exact absurd h (by simp)

/-- Primary-key discipline of the tag table: ids pairwise distinct and below
the sequence value. -/
def tagIdsOk (db : Db) : Prop :=
  (db.tags.map Tag.id).Nodup ∧ ∀ x ∈ db.tags, x.id < db.nextTagId

/-- Primary-key discipline of the ingredient table. -/
def ingIdsOk (db : Db) : Prop :=
  (db.ingredients.map Ingredient.id).Nodup ∧
  ∀ x ∈ db.ingredients, x.id < db.nextIngredientId

/-- Everything a successful run of `_get_or_create_tags` guarantees: the
other tables are untouched; the tag table only grows, by rows owned by the
caller and named from the list; the association set only grows, by ids of
such rows; and each listed name ends up with exactly one row for the caller,
attached to the recipe — the pre-existing row when there was one, a single
fresh row otherwise.  Counts of every other `(owner, name)` pair are
unchanged. -/
def GocTagsPost (u : UserId) (db : Db) (names : List String)
    (assoc assoc' : List Nat) (db' : Db) : Prop :=
  (db'.accounts = db.accounts ∧ db'.ingredients = db.ingredients ∧
   db'.recipes = db.recipes ∧ db'.nextAccountId = db.nextAccountId ∧
   db'.nextIngredientId = db.nextIngredientId ∧
   db'.nextRecipeId = db.nextRecipeId) ∧
  (∃ ts, db'.tags = db.tags ++ ts ∧
     ∀ x ∈ ts, x.user = u ∧ x.name ∈ names ∧ db.nextTagId ≤ x.id) ∧
  db.nextTagId ≤ db'.nextTagId ∧
  (tagIdsOk db → tagIdsOk db') ∧
  (∀ i ∈ assoc, i ∈ assoc') ∧
  (∀ i ∈ assoc', i ∈ assoc ∨
     ∃ t ∈ db'.tags, t.user = u ∧ t.name ∈ names ∧ t.id = i) ∧
  (assoc.Nodup → assoc'.Nodup) ∧
  (∀ n ∈ names,
     countT db.tags u n ≤ 1 ∧ countT db'.tags u n = 1 ∧
     ∃ t ∈ db'.tags, t.user = u ∧ t.name = n ∧ t.id ∈ assoc' ∧
       (0 < countT db.tags u n → t ∈ db.tags) ∧
       (countT db.tags u n = 0 → t ∉ db.tags)) ∧
  (∀ u' n', (u' ≠ u ∨ n' ∉ names) →
     countT db'.tags u' n' = countT db.tags u' n')

theorem gocTags_spec (u : UserId) (names : List String) :
    ∀ (db : Db) (assoc assoc' : List Nat) (db' : Db),
      get_or_create_tags u db names assoc = .ok (assoc', db') →
      GocTagsPost u db names assoc assoc' db' := by
  induction names with
  | nil =>
    intro db assoc assoc' db' h
    unfold get_or_create_tags at h
    simp only [Except.ok.injEq, Prod.mk.injEq] at h
    obtain ⟨rfl, rfl⟩ := h
    refine ⟨⟨rfl, rfl, rfl, rfl, rfl, rfl⟩, ⟨[], by simp, by simp⟩,
      le_refl _, id, fun i hi => hi, fun i hi => Or.inl hi, id, by simp,
      fun u' n' _ => rfl⟩
  | cons n rest ih =>
    intro db assoc assoc' db' h
    unfold get_or_create_tags at h
    cases hg : tagGetOrCreate db u n with
    | error e => rw [hg] at h; exact absurd h (by simp)
    | ok p =>
      obtain ⟨t, db1⟩ := p
      rw [hg] at h
      have IH := ih db1 (m2mAdd assoc t.id) assoc' db' h
      obtain ⟨IHfr, ⟨ts, hts, htsp⟩, IHnext, IHids, IHsub, IHnew, IHnd,
        IHper, IHoth⟩ := IH
      obtain ⟨htu, htn, hcase⟩ := tagGetOrCreate_ok hg
      rcases hcase with ⟨hfilter, heq⟩ | ⟨hfilter, hid, rfl⟩
      · -- the row already existed: db1 = db, t is its unique (u, n) row
        obtain rfl : db = db1 := heq.symm
        have htmem : t ∈ db.tags := by
          have : t ∈ db.tags.filter (tagMatch u n) := by
            rw [hfilter]; exact List.mem_singleton_self t
          exact (List.mem_filter.1 this).1
        have hc1 : countT db.tags u n = 1 := by
          unfold countT; rw [hfilter]; rfl
        refine ⟨IHfr, ⟨ts, hts, fun x hx =>
            ⟨(htsp x hx).1, List.mem_cons_of_mem n (htsp x hx).2.1,
             (htsp x hx).2.2⟩⟩, IHnext, IHids,
          fun i hi => IHsub i (sub_m2mAdd assoc t.id i hi), ?_,
          fun hnd => IHnd (nodup_m2mAdd t.id hnd), ?_, ?_⟩
        · intro i hi
          rcases IHnew i hi with hi' | ⟨t', ht', hu', hn', hid'⟩
          · rcases mem_m2mAdd.1 hi' with hi'' | rfl
            · exact Or.inl hi''
            · refine Or.inr ⟨t, ?_, htu, htn ▸ List.mem_cons_self n rest, rfl⟩
              rw [hts]; exact List.mem_append_left ts htmem
          · exact Or.inr ⟨t', ht', hu', List.mem_cons_of_mem n hn', hid'⟩
        · intro n' hn'
          by_cases hnn : n' = n
          · subst hnn
            have hcd : countT db'.tags u n' = 1 := by
              by_cases hr : n' ∈ rest
              · exact ((IHper n' hr).2.1)
              · rw [IHoth u n' (Or.inr hr)]; exact hc1
            refine ⟨by rw [hc1], hcd, t, ?_, htu, htn,
              IHsub t.id (self_mem_m2mAdd assoc t.id),
              fun _ => htmem, fun h0 => absurd (hc1 ▸ h0) one_ne_zero⟩
            rw [hts]; exact List.mem_append_left ts htmem
          · have hr : n' ∈ rest := by
              rcases List.mem_cons.1 hn' with h' | h'
              · exact absurd h' hnn
              · exact h'
            exact IHper n' hr
        · intro u' n' hcond
          have hcond' : u' ≠ u ∨ n' ∉ rest := by
            rcases hcond with h' | h'
            · exact Or.inl h'
            · exact Or.inr (fun hr => h' (List.mem_cons_of_mem n hr))
          exact IHoth u' n' hcond'
      · -- no row existed: a fresh row t was inserted, db1 = db + t
        have hc0 : countT db.tags u n = 0 := by
          unfold countT; rw [hfilter]; rfl
        have htnotmem : t ∉ db.tags := by
          intro hmem
          have : t ∈ db.tags.filter (tagMatch u n) :=
            List.mem_filter.2 ⟨hmem, tagMatch_iff.2 ⟨htu, htn⟩⟩
          rw [hfilter] at this
          exact absurd this (List.not_mem_nil t)
        have hone : countT [t] u n = 1 := by
          rw [countT_singleton, if_pos (tagMatch_iff.2 ⟨htu, htn⟩)]
        have hsz : ∀ u' n', (u' ≠ u ∨ n' ≠ n) → countT [t] u' n' = 0 := by
          intro u' n' hcond
          rw [countT_singleton, if_neg]
          intro hmt
          obtain ⟨h1, h2⟩ := tagMatch_iff.1 hmt
          rcases hcond with hC | hC
          · exact hC (h1.symm.trans htu)
          · exact hC (h2.symm.trans htn)
        have happ : ∀ u' n', countT (db.tags ++ [t]) u' n' =
            countT db.tags u' n' + countT [t] u' n' :=
          fun u' n' => countT_append db.tags [t] u' n'
        have htdb' : t ∈ db'.tags := by
          rw [hts]
          exact List.mem_append_left ts
            (List.mem_append_right db.tags (List.mem_singleton_self t))
        refine ⟨IHfr, ⟨t :: ts, ?_, ?_⟩, Nat.le_of_succ_le IHnext,
          ?_, fun i hi => IHsub i (sub_m2mAdd assoc t.id i hi), ?_,
          fun hnd => IHnd (nodup_m2mAdd t.id hnd), ?_, ?_⟩
        · rw [hts, List.append_assoc]
          rfl
        · intro x hx
          rcases List.mem_cons.1 hx with rfl | hx'
          · exact ⟨htu, htn ▸ List.mem_cons_self n rest, le_of_eq hid.symm⟩
          · exact ⟨(htsp x hx').1,
              List.mem_cons_of_mem n (htsp x hx').2.1,
              Nat.le_of_succ_le (htsp x hx').2.2⟩
        · intro hok
          obtain ⟨hnd, hbd⟩ := hok
          apply IHids
          constructor
          · show ((db.tags ++ [t]).map Tag.id).Nodup
            rw [List.map_append, List.nodup_append]
            refine ⟨hnd, List.nodup_singleton _, ?_⟩
            intro a ha hb
            simp only [List.map_cons, List.map_nil, List.mem_singleton] at hb
            obtain ⟨x, hx, hxid⟩ := List.mem_map.1 ha
            have hxb := hbd x hx
            omega
          · show ∀ x ∈ db.tags ++ [t], x.id < db.nextTagId + 1
            intro x hx
            rcases List.mem_append.1 hx with hx' | hx'
            · have := hbd x hx'; omega
            · rw [List.mem_singleton] at hx'
              subst hx'
              omega
        · intro i hi
          rcases IHnew i hi with hi' | ⟨t', ht', hu', hn', hid'⟩
          · rcases mem_m2mAdd.1 hi' with hi'' | rfl
            · exact Or.inl hi''
            · exact Or.inr ⟨t, htdb', htu, htn ▸ List.mem_cons_self n rest, rfl⟩
          · exact Or.inr ⟨t', ht', hu', List.mem_cons_of_mem n hn', hid'⟩
        · intro n' hn'
          by_cases hnn : n' = n
          · subst hnn
            have hcnt1 : countT (db.tags ++ [t]) u n' = 1 := by
              have := happ u n'
              rw [hc0, hone] at this
              exact this
            have hcd : countT db'.tags u n' = 1 := by
              by_cases hr : n' ∈ rest
              · exact (IHper n' hr).2.1
              · rw [IHoth u n' (Or.inr hr)]
                exact hcnt1
            exact ⟨hc0 ▸ Nat.zero_le 1, hcd, t, htdb', htu, htn,
              IHsub t.id (self_mem_m2mAdd assoc t.id),
              fun h0 => absurd h0 (by omega), fun _ => htnotmem⟩
          · have hr : n' ∈ rest := by
              rcases List.mem_cons.1 hn' with h' | h'
              · exact absurd h' hnn
              · exact h'
            have htrans : countT (db.tags ++ [t]) u n' = countT db.tags u n' := by
              have := happ u n'
              rw [hsz u n' (Or.inr hnn)] at this
              omega
            obtain ⟨hle1, hcd, t', ht'db', hu', hn'eq, hidmem, hpos, hzero⟩ :=
              IHper n' hr
            refine ⟨htrans ▸ hle1, hcd, t', ht'db', hu', hn'eq, hidmem, ?_, ?_⟩
            · intro h0
              have ht'1 : t' ∈ db.tags ++ [t] := hpos (htrans ▸ h0)
              rcases List.mem_append.1 ht'1 with hx' | hx'
              · exact hx'
              · rw [List.mem_singleton] at hx'
                subst hx'
                exact absurd (hn'eq.symm.trans htn) hnn
            · intro h0
              have ht'no : t' ∉ db.tags ++ [t] := hzero (htrans.trans h0)
              exact fun hmem => ht'no (List.mem_append_left [t] hmem)
        · intro u' n' hcond
          have hcond' : u' ≠ u ∨ n' ∉ rest := by
            rcases hcond with h' | h'
            · exact Or.inl h'
            · exact Or.inr (fun hr => h' (List.mem_cons_of_mem n hr))
          have hstep : countT (db.tags ++ [t]) u' n' = countT db.tags u' n' := by
            have hne : u' ≠ u ∨ n' ≠ n := by
              rcases hcond with h' | h'
              · exact Or.inl h'
              · exact Or.inr (fun he => h' (he ▸ List.mem_cons_self n rest))
            have := happ u' n'
            rw [hsz u' n' hne] at this
            omega
          rw [IHoth u' n' hcond']
          exact hstep

/-- Everything a successful run of `_get_or_create_ingredients` guarantees: the
other tables are untouched; the ingredient table only grows, by rows owned by the
caller and named from the list; the association set only grows, by ids of
such rows; and each listed name ends up with exactly one row for the caller,
attached to the recipe — the pre-existing row when there was one, a single
fresh row otherwise.  Counts of every other `(owner, name)` pair are
unchanged. -/
def GocIngsPost (u : UserId) (db : Db) (names : List String)
    (assoc assoc' : List Nat) (db' : Db) : Prop :=
  (db'.accounts = db.accounts ∧ db'.tags = db.tags ∧
   db'.recipes = db.recipes ∧ db'.nextAccountId = db.nextAccountId ∧
   db'.nextTagId = db.nextTagId ∧
   db'.nextRecipeId = db.nextRecipeId) ∧
  (∃ ts, db'.ingredients = db.ingredients ++ ts ∧
     ∀ x ∈ ts, x.user = u ∧ x.name ∈ names ∧ db.nextIngredientId ≤ x.id) ∧
  db.nextIngredientId ≤ db'.nextIngredientId ∧
  (ingIdsOk db → ingIdsOk db') ∧
  (∀ i ∈ assoc, i ∈ assoc') ∧
  (∀ i ∈ assoc', i ∈ assoc ∨
     ∃ t ∈ db'.ingredients, t.user = u ∧ t.name ∈ names ∧ t.id = i) ∧
  (assoc.Nodup → assoc'.Nodup) ∧
  (∀ n ∈ names,
     countI db.ingredients u n ≤ 1 ∧ countI db'.ingredients u n = 1 ∧
     ∃ t ∈ db'.ingredients, t.user = u ∧ t.name = n ∧ t.id ∈ assoc' ∧
       (0 < countI db.ingredients u n → t ∈ db.ingredients) ∧
       (countI db.ingredients u n = 0 → t ∉ db.ingredients)) ∧
  (∀ u' n', (u' ≠ u ∨ n' ∉ names) →
     countI db'.ingredients u' n' = countI db.ingredients u' n')

theorem gocIngs_spec (u : UserId) (names : List String) :
    ∀ (db : Db) (assoc assoc' : List Nat) (db' : Db),
      get_or_create_ingredients u db names assoc = .ok (assoc', db') →
      GocIngsPost u db names assoc assoc' db' := by
  induction names with
  | nil =>
    intro db assoc assoc' db' h
    unfold get_or_create_ingredients at h
    simp only [Except.ok.injEq, Prod.mk.injEq] at h
    obtain ⟨rfl, rfl⟩ := h
    refine ⟨⟨rfl, rfl, rfl, rfl, rfl, rfl⟩, ⟨[], by simp, by simp⟩,
      le_refl _, id, fun i hi => hi, fun i hi => Or.inl hi, id, by simp,
      fun u' n' _ => rfl⟩
  | cons n rest ih =>
    intro db assoc assoc' db' h
    unfold get_or_create_ingredients at h
    cases hg : ingGetOrCreate db u n with
    | error e => rw [hg] at h; exact absurd h (by simp)
    | ok p =>
      obtain ⟨t, db1⟩ := p
      rw [hg] at h
      have IH := ih db1 (m2mAdd assoc t.id) assoc' db' h
      obtain ⟨IHfr, ⟨ts, hts, htsp⟩, IHnext, IHids, IHsub, IHnew, IHnd,
        IHper, IHoth⟩ := IH
      obtain ⟨htu, htn, hcase⟩ := ingGetOrCreate_ok hg
      rcases hcase with ⟨hfilter, heq⟩ | ⟨hfilter, hid, rfl⟩
      · -- the row already existed: db1 = db, t is its unique (u, n) row
        obtain rfl : db = db1 := heq.symm
        have htmem : t ∈ db.ingredients := by
          have : t ∈ db.ingredients.filter (ingMatch u n) := by
            rw [hfilter]; exact List.mem_singleton_self t
          exact (List.mem_filter.1 this).1
        have hc1 : countI db.ingredients u n = 1 := by
          unfold countI; rw [hfilter]; rfl
        refine ⟨IHfr, ⟨ts, hts, fun x hx =>
            ⟨(htsp x hx).1, List.mem_cons_of_mem n (htsp x hx).2.1,
             (htsp x hx).2.2⟩⟩, IHnext, IHids,
          fun i hi => IHsub i (sub_m2mAdd assoc t.id i hi), ?_,
          fun hnd => IHnd (nodup_m2mAdd t.id hnd), ?_, ?_⟩
        · intro i hi
          rcases IHnew i hi with hi' | ⟨t', ht', hu', hn', hid'⟩
          · rcases mem_m2mAdd.1 hi' with hi'' | rfl
            · exact Or.inl hi''
            · refine Or.inr ⟨t, ?_, htu, htn ▸ List.mem_cons_self n rest, rfl⟩
              rw [hts]; exact List.mem_append_left ts htmem
          · exact Or.inr ⟨t', ht', hu', List.mem_cons_of_mem n hn', hid'⟩
        · intro n' hn'
          by_cases hnn : n' = n
          · subst hnn
            have hcd : countI db'.ingredients u n' = 1 := by
              by_cases hr : n' ∈ rest
              · exact ((IHper n' hr).2.1)
              · rw [IHoth u n' (Or.inr hr)]; exact hc1
            refine ⟨by rw [hc1], hcd, t, ?_, htu, htn,
              IHsub t.id (self_mem_m2mAdd assoc t.id),
              fun _ => htmem, fun h0 => absurd (hc1 ▸ h0) one_ne_zero⟩
            rw [hts]; exact List.mem_append_left ts htmem
          · have hr : n' ∈ rest := by
              rcases List.mem_cons.1 hn' with h' | h'
              · exact absurd h' hnn
              · exact h'
            exact IHper n' hr
        · intro u' n' hcond
          have hcond' : u' ≠ u ∨ n' ∉ rest := by
            rcases hcond with h' | h'
            · exact Or.inl h'
            · exact Or.inr (fun hr => h' (List.mem_cons_of_mem n hr))
          exact IHoth u' n' hcond'
      · -- no row existed: a fresh row t was inserted, db1 = db + t
        have hc0 : countI db.ingredients u n = 0 := by
          unfold countI; rw [hfilter]; rfl
        have htnotmem : t ∉ db.ingredients := by
          intro hmem
          have : t ∈ db.ingredients.filter (ingMatch u n) :=
            List.mem_filter.2 ⟨hmem, ingMatch_iff.2 ⟨htu, htn⟩⟩
          rw [hfilter] at this
          exact absurd this (List.not_mem_nil t)
        have hone : countI [t] u n = 1 := by
          rw [countI_singleton, if_pos (ingMatch_iff.2 ⟨htu, htn⟩)]
        have hsz : ∀ u' n', (u' ≠ u ∨ n' ≠ n) → countI [t] u' n' = 0 := by
          intro u' n' hcond
          rw [countI_singleton, if_neg]
          intro hmt
          obtain ⟨h1, h2⟩ := ingMatch_iff.1 hmt
          rcases hcond with hC | hC
          · exact hC (h1.symm.trans htu)
          · exact hC (h2.symm.trans htn)
        have happ : ∀ u' n', countI (db.ingredients ++ [t]) u' n' =
            countI db.ingredients u' n' + countI [t] u' n' :=
          fun u' n' => countI_append db.ingredients [t] u' n'
        have htdb' : t ∈ db'.ingredients := by
          rw [hts]
          exact List.mem_append_left ts
            (List.mem_append_right db.ingredients (List.mem_singleton_self t))
        refine ⟨IHfr, ⟨t :: ts, ?_, ?_⟩, Nat.le_of_succ_le IHnext,
          ?_, fun i hi => IHsub i (sub_m2mAdd assoc t.id i hi), ?_,
          fun hnd => IHnd (nodup_m2mAdd t.id hnd), ?_, ?_⟩
        · rw [hts, List.append_assoc]
          rfl
        · intro x hx
          rcases List.mem_cons.1 hx with rfl | hx'
          · exact ⟨htu, htn ▸ List.mem_cons_self n rest, le_of_eq hid.symm⟩
          · exact ⟨(htsp x hx').1,
              List.mem_cons_of_mem n (htsp x hx').2.1,
              Nat.le_of_succ_le (htsp x hx').2.2⟩
        · intro hok
          obtain ⟨hnd, hbd⟩ := hok
          apply IHids
          constructor
          · show ((db.ingredients ++ [t]).map Ingredient.id).Nodup
            rw [List.map_append, List.nodup_append]
            refine ⟨hnd, List.nodup_singleton _, ?_⟩
            intro a ha hb
            simp only [List.map_cons, List.map_nil, List.mem_singleton] at hb
            obtain ⟨x, hx, hxid⟩ := List.mem_map.1 ha
            have hxb := hbd x hx
            omega
          · show ∀ x ∈ db.ingredients ++ [t], x.id < db.nextIngredientId + 1
            intro x hx
            rcases List.mem_append.1 hx with hx' | hx'
            · have := hbd x hx'; omega
            · rw [List.mem_singleton] at hx'
              subst hx'
              omega
        · intro i hi
          rcases IHnew i hi with hi' | ⟨t', ht', hu', hn', hid'⟩
          · rcases mem_m2mAdd.1 hi' with hi'' | rfl
            · exact Or.inl hi''
            · exact Or.inr ⟨t, htdb', htu, htn ▸ List.mem_cons_self n rest, rfl⟩
          · exact Or.inr ⟨t', ht', hu', List.mem_cons_of_mem n hn', hid'⟩
        · intro n' hn'
          by_cases hnn : n' = n
          · subst hnn
            have hcnt1 : countI (db.ingredients ++ [t]) u n' = 1 := by
              have := happ u n'
              rw [hc0, hone] at this
              exact this
            have hcd : countI db'.ingredients u n' = 1 := by
              by_cases hr : n' ∈ rest
              · exact (IHper n' hr).2.1
              · rw [IHoth u n' (Or.inr hr)]
                exact hcnt1
            exact ⟨hc0 ▸ Nat.zero_le 1, hcd, t, htdb', htu, htn,
              IHsub t.id (self_mem_m2mAdd assoc t.id),
              fun h0 => absurd h0 (by omega), fun _ => htnotmem⟩
          · have hr : n' ∈ rest := by
              rcases List.mem_cons.1 hn' with h' | h'
              · exact absurd h' hnn
              · exact h'
            have htrans : countI (db.ingredients ++ [t]) u n' = countI db.ingredients u n' := by
              have := happ u n'
              rw [hsz u n' (Or.inr hnn)] at this
              omega
            obtain ⟨hle1, hcd, t', ht'db', hu', hn'eq, hidmem, hpos, hzero⟩ :=
              IHper n' hr
            refine ⟨htrans ▸ hle1, hcd, t', ht'db', hu', hn'eq, hidmem, ?_, ?_⟩
            · intro h0
              have ht'1 : t' ∈ db.ingredients ++ [t] := hpos (htrans ▸ h0)
              rcases List.mem_append.1 ht'1 with hx' | hx'
              · exact hx'
              · rw [List.mem_singleton] at hx'
                subst hx'
                exact absurd (hn'eq.symm.trans htn) hnn
            · intro h0
              have ht'no : t' ∉ db.ingredients ++ [t] := hzero (htrans.trans h0)
              exact fun hmem => ht'no (List.mem_append_left [t] hmem)
        · intro u' n' hcond
          have hcond' : u' ≠ u ∨ n' ∉ rest := by
            rcases hcond with h' | h'
            · exact Or.inl h'
            · exact Or.inr (fun hr => h' (List.mem_cons_of_mem n hr))
          have hstep : countI (db.ingredients ++ [t]) u' n' = countI db.ingredients u' n' := by
            have hne : u' ≠ u ∨ n' ≠ n := by
              rcases hcond with h' | h'
              · exact Or.inl h'
              · exact Or.inr (fun he => h' (he ▸ List.mem_cons_self n rest))
            have := happ u' n'
            rw [hsz u' n' hne] at this
            omega
          rw [IHoth u' n' hcond']
          exact hstep


theorem mem_length_one {α : Type} {l : List α} (h : l.length = 1) {a b : α}
    (ha : a ∈ l) (hb : b ∈ l) : a = b := by
  obtain ⟨x, rfl⟩ := List.length_eq_one.1 h
  rw [List.mem_singleton] at ha hb
  rw [ha, hb]

theorem setRecipe_tags (db : Db) (r : Recipe) :
    (setRecipe db r).tags = db.tags := rfl

theorem setRecipe_ingredients (db : Db) (r : Recipe) :
    (setRecipe db r).ingredients = db.ingredients := rfl

theorem mem_setRecipe_self {db : Db} {r : Recipe} (inst : Recipe)
    (hmem : inst ∈ db.recipes) (hid : inst.id = r.id) :
    r ∈ (setRecipe db r).recipes := by
  unfold setRecipe
  simp only [List.mem_map]
  exact ⟨inst, hmem, by simp [hid]⟩

theorem findOwnedRecipe_some {db : Db} {u : UserId} {rid : Nat} {inst : Recipe}
    (h : findOwnedRecipe db u rid = some inst) :
    inst ∈ db.recipes ∧ inst.user = u ∧ inst.id = rid := by
  unfold findOwnedRecipe ownedRecipes at h
  have hmem := List.mem_of_find?_eq_some h
  have hpred := List.find?_some h
  obtain ⟨hin, hu⟩ := List.mem_filter.1 hmem
  exact ⟨hin, by simpa using hu, by simpa using hpred⟩

theorem findOwnedTag_some {db : Db} {u : UserId} {tid : Nat} {t : Tag}
    (h : findOwnedTag db u tid = some t) :
    t ∈ db.tags ∧ t.user = u ∧ t.id = tid := by
  unfold findOwnedTag ownedTags at h
  have hmem := List.mem_of_find?_eq_some h
  have hpred := List.find?_some h
  obtain ⟨hin, hu⟩ := List.mem_filter.1 hmem
  exact ⟨hin, by simpa using hu, by simpa using hpred⟩

theorem findOwnedIng_some {db : Db} {u : UserId} {iid : Nat} {i : Ingredient}
    (h : findOwnedIng db u iid = some i) :
    i ∈ db.ingredients ∧ i.user = u ∧ i.id = iid := by
  unfold findOwnedIng ownedIngs at h
  have hmem := List.mem_of_find?_eq_some h
  have hpred := List.find?_some h
  obtain ⟨hin, hu⟩ := List.mem_filter.1 hmem
  exact ⟨hin, by simpa using hu, by simpa using hpred⟩

theorem updTagsStep_none {db : Db} {u : UserId} {inst : Recipe}
    {p : RecipePayload} (hpt : p.tags = none) :
    updTagsStep db u inst p = .ok (inst.tags, db) := by
  unfold updTagsStep; rw [hpt]

theorem updTagsStep_some {db : Db} {u : UserId} {inst : Recipe}
    {p : RecipePayload} {names : List String} (hpt : p.tags = some names) :
    updTagsStep db u inst p = get_or_create_tags u db names [] := by
  unfold updTagsStep; rw [hpt]

theorem updIngsStep_none {db : Db} {u : UserId} {inst : Recipe}
    {p : RecipePayload} (hpi : p.ingredients = none) :
    updIngsStep db u inst p = .ok (inst.ingredients, db) := by
  unfold updIngsStep; rw [hpi]

theorem updIngsStep_some {db : Db} {u : UserId} {inst : Recipe}
    {p : RecipePayload} {names : List String}
    (hpi : p.ingredients = some names) :
    updIngsStep db u inst p = get_or_create_ingredients u db names [] := by
  unfold updIngsStep; rw [hpi]

theorem serializerUpdate_ok {db : Db} {u : UserId} {inst : Recipe}
    {p : RecipePayload} {r : Recipe} {db2 : Db}
    (h : serializerUpdate db u inst p = .ok (r, db2)) :
    ∃ tagAssoc db1 ingAssoc dbI,
      updTagsStep db u inst p = .ok (tagAssoc, db1) ∧
      updIngsStep db1 u inst p = .ok (ingAssoc, dbI) ∧
      r = { inst with
        title := p.title.getD inst.title,
        time_minutes := p.time_minutes.getD inst.time_minutes,
        price := p.price.getD inst.price,
        link := p.link.getD inst.link,
        description := p.description.getD inst.description,
        tags := tagAssoc, ingredients := ingAssoc } ∧
      db2 = setRecipe dbI r := by
  unfold serializerUpdate at h
  split at h
  · exact absurd h (by simp)
  · rename_i q tagAssoc db1 hts
    split at h
    · exact absurd h (by simp)
    · rename_i q2 ingAssoc dbI his
      simp only [Except.ok.injEq, Prod.mk.injEq] at h
      obtain ⟨rfl, rfl⟩ := h
      exact ⟨tagAssoc, db1, ingAssoc, dbI, hts, his, rfl, rfl⟩

theorem serializerCreate_ok {db : Db} {u : UserId} {d : RecipeCreateData}
    {r : Recipe} {db2 : Db}
    (h : serializerCreate db u d = .ok (r, db2)) :
    ∃ tagAssoc db1 ingAssoc dbI,
      get_or_create_tags u (insertRecipeRow db u d) d.tags [] =
        .ok (tagAssoc, db1) ∧
      get_or_create_ingredients u db1 d.ingredients [] = .ok (ingAssoc, dbI) ∧
      r = { (newRecipeRow db u d) with
            tags := tagAssoc, ingredients := ingAssoc } ∧
      db2 = setRecipe dbI r := by
  unfold serializerCreate at h
  split at h
  · exact absurd h (by simp)
  · rename_i q tagAssoc db1 hts
    split at h
    · exact absurd h (by simp)
    · rename_i q2 ingAssoc dbI his
      simp only [Except.ok.injEq, Prod.mk.injEq] at h
      obtain ⟨rfl, rfl⟩ := h
      exact ⟨tagAssoc, db1, ingAssoc, dbI, hts, his, rfl, rfl⟩

theorem runUpdateRecipe_ok {db : Db} {u : UserId} {rid : Nat}
    {p : RecipePayload} {r : Recipe} {db2 : Db}
    (h : runUpdateRecipe db u rid p = (.ok r, db2)) :
    ∃ inst, findOwnedRecipe db u rid = some inst ∧
      serializerUpdate db u inst p = .ok (r, db2) := by
  unfold runUpdateRecipe at h
  split at h
  · exact absurd h (by simp)
  · rename_i inst hf
    split at h
    · rename_i q r0 db' hser
      simp only [Prod.mk.injEq, Except.ok.injEq] at h
      obtain ⟨rfl, rfl⟩ := h
      exact ⟨inst, hf, hser⟩
    · exact absurd h (by simp)

theorem runUpdateRecipe_err {db : Db} {u : UserId} {rid : Nat}
    {p : RecipePayload} {e : ApiError} {db2 : Db}
    (h : runUpdateRecipe db u rid p = (.error e, db2)) : db2 = db := by
  unfold runUpdateRecipe at h
  split at h
  · simp only [Prod.mk.injEq] at h
    exact h.2.symm
  · rename_i inst hf
    split at h
    · exact absurd h (by simp)
    · simp only [Prod.mk.injEq] at h
      exact h.2.symm

theorem runCreateRecipe_ok {db : Db} {u : UserId} {d : RecipeCreateData}
    {r : Recipe} {db2 : Db}
    (h : runCreateRecipe db u d = (.ok r, db2)) :
    serializerCreate db u d = .ok (r, db2) := by
  unfold runCreateRecipe at h
  split at h
  · rename_i q r0 db' hser
    simp only [Prod.mk.injEq, Except.ok.injEq] at h
    obtain ⟨rfl, rfl⟩ := h
    exact hser
  · exact absurd h (by simp)

theorem runCreateRecipe_err {db : Db} {u : UserId} {d : RecipeCreateData}
    {e : ApiError} {db2 : Db}
    (h : runCreateRecipe db u d = (.error e, db2)) : db2 = db := by
  unfold runCreateRecipe at h
  split at h
  · exact absurd h (by simp)
  · simp only [Prod.mk.injEq] at h
    exact h.2.symm

/-- A concrete two-account store used by the claim witnesses. -/
def dbW : Db :=
  ⟨[⟨1, "a@x.com", "h1", "A"⟩, ⟨2, "b@x.com", "h2", "B"⟩],
   [⟨1, 1, "Tag1"⟩, ⟨2, 2, "TagB"⟩],
   [⟨1, 1, "Ing1"⟩],
   [⟨1, 1, "R1", 5, 10, "l", "d", [1], [1]⟩,
    ⟨2, 2, "R2", 7, 20, "l2", "d2", [2], []⟩],
   3, 3, 2, 3⟩

/-- The recipe row of account 1 in `dbW`. -/
def instW : Recipe := ⟨1, 1, "R1", 5, 10, "l", "d", [1], [1]⟩

/-- A PATCH payload renaming the title and replacing the tag set. -/
def pW : RecipePayload :=
  ⟨some "New", none, none, none, none, some ["Tag1", "Tag2"], none⟩

/-- The updated recipe resulting from applying `pW` to `instW` in `dbW`. -/
def rW : Recipe := ⟨1, 1, "New", 5, 10, "l", "d", [1, 3], [1]⟩

/-- The store after applying `pW` to recipe 1 of account 1 in `dbW`. -/
def db2W : Db :=
  ⟨[⟨1, "a@x.com", "h1", "A"⟩, ⟨2, "b@x.com", "h2", "B"⟩],
   [⟨1, 1, "Tag1"⟩, ⟨2, 2, "TagB"⟩, ⟨3, 1, "Tag2"⟩],
   [⟨1, 1, "Ing1"⟩],
   [⟨1, 1, "New", 5, 10, "l", "d", [1, 3], [1]⟩,
    ⟨2, 2, "R2", 7, 20, "l2", "d2", [2], []⟩],
   3, 4, 2, 3⟩

/-- C2: for every recipe update request, a present `tags` (respectively
`ingredients`) field — even as an empty list — clears the recipe's existing
association set for that dimension and rebuilds it from exactly the provided
descriptor list (an id is associated iff it is the id of a stored row of the
caller named by the list); an absent field leaves that dimension unchanged;
scalar fields not provided in a PATCH are also left unchanged. -/
theorem recipe_update_field_frame
    (db db2 : Db) (u : UserId) (rid : Nat) (p : RecipePayload)
    (r inst : Recipe)
    (hfind : findOwnedRecipe db u rid = some inst)
    (h : runUpdateRecipe db u rid p = (.ok r, db2)) :
    (p.tags = none → r.tags = inst.tags) ∧
    (∀ names, p.tags = some names →
       ∀ i, i ∈ r.tags ↔
         ∃ t ∈ db2.tags, t.user = u ∧ t.name ∈ names ∧ t.id = i) ∧
    (p.ingredients = none → r.ingredients = inst.ingredients) ∧
    (∀ names, p.ingredients = some names →
       ∀ i, i ∈ r.ingredients ↔
         ∃ t ∈ db2.ingredients, t.user = u ∧ t.name ∈ names ∧ t.id = i) ∧
    (p.title = none → r.title = inst.title) ∧
    (p.time_minutes = none → r.time_minutes = inst.time_minutes) ∧
    (p.price = none → r.price = inst.price) ∧
    (p.link = none → r.link = inst.link) ∧
    (p.description = none → r.description = inst.description) ∧
    r ∈ db2.recipes := by
  obtain ⟨inst', hf', hser⟩ := runUpdateRecipe_ok h
  obtain rfl : inst = inst' := Option.some_injective _ (hfind.symm.trans hf')
  obtain ⟨tagAssoc, db1, ingAssoc, dbI, hts, his, hr, hdb2⟩ :=
    serializerUpdate_ok hser
  have hIt : dbI.tags = db1.tags := by
    rcases hpi : p.ingredients with _ | inames
    · rw [updIngsStep_none hpi] at his
      simp only [Except.ok.injEq, Prod.mk.injEq] at his
      rw [← his.2]
    · rw [updIngsStep_some hpi] at his
      exact ((gocIngs_spec u inames db1 [] ingAssoc dbI his).1).2.1
  have hIi : db1.ingredients = db.ingredients := by
    rcases hpt : p.tags with _ | names
    · rw [updTagsStep_none hpt] at hts
      simp only [Except.ok.injEq, Prod.mk.injEq] at hts
      rw [← hts.2]
    · rw [updTagsStep_some hpt] at hts
      exact ((gocTags_spec u names db [] tagAssoc db1 hts).1).2.1
  have h2t : db2.tags = db1.tags := by
    rw [hdb2, setRecipe_tags, hIt]
  have h2i : db2.ingredients = dbI.ingredients := by
    rw [hdb2, setRecipe_ingredients]
  refine ⟨?_, ?_, ?_, ?_, ?_, ?_, ?_, ?_, ?_, ?_⟩
  · intro hpt
    rw [updTagsStep_none hpt] at hts
    simp only [Except.ok.injEq, Prod.mk.injEq] at hts
    rw [hr]
    exact hts.1.symm
  · intro names hpt i
    rw [updTagsStep_some hpt] at hts
    obtain ⟨-, -, -, -, -, Pnew, -, Pper, -⟩ :=
      gocTags_spec u names db [] tagAssoc db1 hts
    constructor
    · intro hi
      have hi' : i ∈ tagAssoc := by rw [hr] at hi; exact hi
      rcases Pnew i hi' with hfalse | ⟨t, ht1, hu', hn', hid'⟩
      · exact absurd hfalse (List.not_mem_nil i)
      · exact ⟨t, by rw [h2t]; exact ht1, hu', hn', hid'⟩
    · rintro ⟨t, htmem, htu', htnames, rfl⟩
      rw [h2t] at htmem
      obtain ⟨-, hcnt', t', ht', hu'', hn'', hidmem, -, -⟩ :=
        Pper t.name htnames
      have h1 : t ∈ db1.tags.filter (tagMatch u t.name) :=
        List.mem_filter.2 ⟨htmem, tagMatch_iff.2 ⟨htu', rfl⟩⟩
      have h2 : t' ∈ db1.tags.filter (tagMatch u t.name) :=
        List.mem_filter.2 ⟨ht', tagMatch_iff.2 ⟨hu'', hn''⟩⟩
      have heqt : t' = t := mem_length_one hcnt' h2 h1
      rw [hr]
      exact heqt ▸ hidmem
  · intro hpi
    rw [updIngsStep_none hpi] at his
    simp only [Except.ok.injEq, Prod.mk.injEq] at his
    rw [hr]
    exact his.1.symm
  · intro names hpi i
    rw [updIngsStep_some hpi] at his
    obtain ⟨-, -, -, -, -, Pnew, -, Pper, -⟩ :=
      gocIngs_spec u names db1 [] ingAssoc dbI his
    constructor
    · intro hi
      have hi' : i ∈ ingAssoc := by rw [hr] at hi; exact hi
      rcases Pnew i hi' with hfalse | ⟨t, ht1, hu', hn', hid'⟩
      · exact absurd hfalse (List.not_mem_nil i)
      · exact ⟨t, by rw [h2i]; exact ht1, hu', hn', hid'⟩
    · rintro ⟨t, htmem, htu', htnames, rfl⟩
      rw [h2i] at htmem
      obtain ⟨-, hcnt', t', ht', hu'', hn'', hidmem, -, -⟩ :=
        Pper t.name htnames
      have h1 : t ∈ dbI.ingredients.filter (ingMatch u t.name) :=
        List.mem_filter.2 ⟨htmem, ingMatch_iff.2 ⟨htu', rfl⟩⟩
      have h2 : t' ∈ dbI.ingredients.filter (ingMatch u t.name) := by
        refine List.mem_filter.2 ⟨?_, ingMatch_iff.2 ⟨hu'', hn''⟩⟩
        obtain ⟨-, -, -, -, -, -, -, Pper2, -⟩ :=
          gocIngs_spec u names db1 [] ingAssoc dbI his
        exact ht'
      have heqt : t' = t := mem_length_one ?_ h2 h1
      · rw [hr]
        exact heqt ▸ hidmem
      · have hcApp : countI dbI.ingredients u t.name = 1 := hcnt'
        exact hcApp
  · intro hp
    rw [hr, hp]
    simp
  · intro hp
    rw [hr, hp]
    simp
  · intro hp
    rw [hr, hp]
    simp
  · intro hp
    rw [hr, hp]
    simp
  · intro hp
    rw [hr, hp]
    simp
  · have h1r : db1.recipes = db.recipes := by
      rcases hpt : p.tags with _ | names
      · rw [updTagsStep_none hpt] at hts
        simp only [Except.ok.injEq, Prod.mk.injEq] at hts
        rw [← hts.2]
      · rw [updTagsStep_some hpt] at hts
        exact ((gocTags_spec u names db [] tagAssoc db1 hts).1).2.2.1
    have hIr : dbI.recipes = db1.recipes := by
      rcases hpi : p.ingredients with _ | inames
      · rw [updIngsStep_none hpi] at his
        simp only [Except.ok.injEq, Prod.mk.injEq] at his
        rw [← his.2]
      · rw [updIngsStep_some hpi] at his
        exact ((gocIngs_spec u inames db1 [] ingAssoc dbI his).1).2.2.1
    rw [hdb2]
    refine mem_setRecipe_self inst ?_ ?_
    · rw [hIr, h1r]
      exact (findOwnedRecipe_some hfind).1
    · rw [hr]

/-- Per-descriptor outcome required of the tag reconciler: an existing
`(owner, name)` row is attached with no new row created; otherwise exactly
one fresh row owned by the caller is created and attached. -/
def PerNameTagOutcome (db db2 : Db) (u : UserId) (attached : List Nat)
    (n : String) : Prop :=
  ((∃ t ∈ db.tags, t.user = u ∧ t.name = n) →
      countTags db2 u n = countTags db u n ∧
      ∃ t ∈ db.tags, t.user = u ∧ t.name = n ∧ t.id ∈ attached) ∧
  ((¬ ∃ t ∈ db.tags, t.user = u ∧ t.name = n) →
      countTags db2 u n = 1 ∧
      ∃ t ∈ db2.tags, t ∉ db.tags ∧ t.user = u ∧ t.name = n ∧
        t.id ∈ attached)

/-- Per-descriptor outcome required of the ingredient reconciler. -/
def PerNameIngOutcome (db db2 : Db) (u : UserId) (attached : List Nat)
    (n : String) : Prop :=
  ((∃ t ∈ db.ingredients, t.user = u ∧ t.name = n) →
      countIngs db2 u n = countIngs db u n ∧
      ∃ t ∈ db.ingredients, t.user = u ∧ t.name = n ∧ t.id ∈ attached) ∧
  ((¬ ∃ t ∈ db.ingredients, t.user = u ∧ t.name = n) →
      countIngs db2 u n = 1 ∧
      ∃ t ∈ db2.ingredients, t ∉ db.ingredients ∧ t.user = u ∧ t.name = n ∧
        t.id ∈ attached)

theorem perNameTag_of_goc {u : UserId} {names : List String} {dbS : Db}
    {assoc : List Nat} {db1 : Db}
    (h : get_or_create_tags u dbS names [] = .ok (assoc, db1))
    {dbPre db2 : Db} (hpre : dbS.tags = dbPre.tags)
    (hpost : db2.tags = db1.tags) :
    ∀ n ∈ names, PerNameTagOutcome dbPre db2 u assoc n := by
  obtain ⟨-, -, -, -, -, -, -, Pper, -⟩ :=
    gocTags_spec u names dbS [] assoc db1 h
  intro n hn
  obtain ⟨hle, hone, t, htdb1, htu, htn, hid, hpos, hzero⟩ := Pper n hn
  rw [hpre] at hle hpos hzero
  constructor
  · rintro ⟨t0, ht0, hu0, hn0⟩
    have hposc : 0 < countT dbPre.tags u n := countT_pos_of_match ht0 hu0 hn0
    have hc1 : countT dbPre.tags u n = 1 := by omega
    refine ⟨?_, t, hpos hposc, htu, htn, hid⟩
    rw [countTags_eq, countTags_eq, hpost, hone, hc1]
  · intro hne
    have hc0 : countT dbPre.tags u n = 0 :=
      countT_eq_zero.2 (fun t' ht' hconj => hne ⟨t', ht', hconj⟩)
    refine ⟨?_, t, ?_, hzero hc0, htu, htn, hid⟩
    · rw [countTags_eq, hpost, hone]
    · rw [hpost]
      exact htdb1

theorem perNameIng_of_goc {u : UserId} {names : List String} {dbS : Db}
    {assoc : List Nat} {db1 : Db}
    (h : get_or_create_ingredients u dbS names [] = .ok (assoc, db1))
    {dbPre db2 : Db} (hpre : dbS.ingredients = dbPre.ingredients)
    (hpost : db2.ingredients = db1.ingredients) :
    ∀ n ∈ names, PerNameIngOutcome dbPre db2 u assoc n := by
  obtain ⟨-, -, -, -, -, -, -, Pper, -⟩ :=
    gocIngs_spec u names dbS [] assoc db1 h
  intro n hn
  obtain ⟨hle, hone, t, htdb1, htu, htn, hid, hpos, hzero⟩ := Pper n hn
  rw [hpre] at hle hpos hzero
  constructor
  · rintro ⟨t0, ht0, hu0, hn0⟩
    have hposc : 0 < countI dbPre.ingredients u n := countI_pos_of_match ht0 hu0 hn0
    have hc1 : countI dbPre.ingredients u n = 1 := by omega
    refine ⟨?_, t, hpos hposc, htu, htn, hid⟩
    rw [countIngs_eq, countIngs_eq, hpost, hone, hc1]
  · intro hne
    have hc0 : countI dbPre.ingredients u n = 0 :=
      countI_eq_zero.2 (fun t' ht' hconj => hne ⟨t', ht', hconj⟩)
    refine ⟨?_, t, ?_, hzero hc0, htu, htn, hid⟩
    · rw [countIngs_eq, hpost, hone]
    · rw [hpost]
      exact htdb1

/-- Witness for C2 at the concrete store `dbW`. -/
theorem recipe_update_field_frame_witness :
    (pW.tags = none → rW.tags = instW.tags) ∧
    (∀ names, pW.tags = some names →
       ∀ i, i ∈ rW.tags ↔
         ∃ t ∈ db2W.tags, t.user = 1 ∧ t.name ∈ names ∧ t.id = i) ∧
    (pW.ingredients = none → rW.ingredients = instW.ingredients) ∧
    (∀ names, pW.ingredients = some names →
       ∀ i, i ∈ rW.ingredients ↔
         ∃ t ∈ db2W.ingredients, t.user = 1 ∧ t.name ∈ names ∧ t.id = i) ∧
    (pW.title = none → rW.title = instW.title) ∧
    (pW.time_minutes = none → rW.time_minutes = instW.time_minutes) ∧
    (pW.price = none → rW.price = instW.price) ∧
    (pW.link = none → rW.link = instW.link) ∧
    (pW.description = none → rW.description = instW.description) ∧
    rW ∈ db2W.recipes :=
  recipe_update_field_frame dbW db2W 1 1 pW rW instW (by decide) (by decide)

/-- Validated data for a concrete recipe create carrying one existing and
one fresh descriptor in each dimension. -/
def dW : RecipeCreateData :=
  ⟨"T", 1, 2, "lk", "ds", ["Tag1", "TagNew"], ["Ing1", "IngNew"]⟩

/-- The recipe created by `dW` against `dbW`. -/
def rCW : Recipe := ⟨3, 1, "T", 1, 2, "lk", "ds", [1, 3], [1, 2]⟩

/-- The store after creating `dW` against `dbW`. -/
def db2CW : Db :=
  ⟨[⟨1, "a@x.com", "h1", "A"⟩, ⟨2, "b@x.com", "h2", "B"⟩],
   [⟨1, 1, "Tag1"⟩, ⟨2, 2, "TagB"⟩, ⟨3, 1, "TagNew"⟩],
   [⟨1, 1, "Ing1"⟩, ⟨2, 1, "IngNew"⟩],
   [⟨1, 1, "R1", 5, 10, "l", "d", [1], [1]⟩,
    ⟨2, 2, "R2", 7, 20, "l2", "d2", [2], []⟩, rCW],
   3, 4, 3, 4⟩

/-- A PATCH payload replacing both descriptor sets of recipe 1. -/
def pW2 : RecipePayload :=
  ⟨none, none, none, none, none, some ["Tag2"], some ["Ing1"]⟩

/-- The recipe resulting from applying `pW2` to recipe 1 in `dbW`. -/
def rUW : Recipe := ⟨1, 1, "R1", 5, 10, "l", "d", [3], [1]⟩

/-- The store after applying `pW2` to recipe 1 in `dbW`. -/
def db2UW : Db :=
  ⟨[⟨1, "a@x.com", "h1", "A"⟩, ⟨2, "b@x.com", "h2", "B"⟩],
   [⟨1, 1, "Tag1"⟩, ⟨2, 2, "TagB"⟩, ⟨3, 1, "Tag2"⟩],
   [⟨1, 1, "Ing1"⟩],
   [rUW, ⟨2, 2, "R2", 7, 20, "l2", "d2", [2], []⟩],
   3, 4, 2, 3⟩

/-- C1: for every successful recipe create or update carrying a tag
(respectively ingredient) descriptor list, each descriptor name is resolved
per `PerNameTagOutcome`/`PerNameIngOutcome`: an existing row with that exact
name scoped to the requesting account is attached with no duplicate created;
otherwise exactly one new row owned by that account is created and
attached. -/
theorem reconcile_get_or_create_per_name
    (dbC db2C dbU db2U : Db) (u : UserId) (d : RecipeCreateData)
    (rid : Nat) (p : RecipePayload) (rC rU : Recipe)
    (tagNames ingNames : List String)
    (hC : runCreateRecipe dbC u d = (.ok rC, db2C))
    (hU : runUpdateRecipe dbU u rid p = (.ok rU, db2U))
    (hpt : p.tags = some tagNames) (hpi : p.ingredients = some ingNames) :
    (∀ n ∈ d.tags, PerNameTagOutcome dbC db2C u rC.tags n) ∧
    (∀ n ∈ d.ingredients, PerNameIngOutcome dbC db2C u rC.ingredients n) ∧
    (∀ n ∈ tagNames, PerNameTagOutcome dbU db2U u rU.tags n) ∧
    (∀ n ∈ ingNames, PerNameIngOutcome dbU db2U u rU.ingredients n) := by
  obtain ⟨tagAssoc, db1, ingAssoc, dbI, hts, his, hr, hdb2⟩ :=
    serializerCreate_ok (runCreateRecipe_ok hC)
  obtain ⟨inst, hfind, hser⟩ := runUpdateRecipe_ok hU
  obtain ⟨tagAssocU, db1U, ingAssocU, dbIU, htsU, hisU, hrU, hdb2U⟩ :=
    serializerUpdate_ok hser
  rw [updTagsStep_some hpt] at htsU
  rw [updIngsStep_some hpi] at hisU
  have hfrT :=
    (gocTags_spec u d.tags (insertRecipeRow dbC u d) [] tagAssoc db1 hts).1
  have hfrI :=
    (gocIngs_spec u d.ingredients db1 [] ingAssoc dbI his).1
  have hfrTU := (gocTags_spec u tagNames dbU [] tagAssocU db1U htsU).1
  have hfrIU := (gocIngs_spec u ingNames db1U [] ingAssocU dbIU hisU).1
  have hrt : rC.tags = tagAssoc := by rw [hr]
  have hri : rC.ingredients = ingAssoc := by rw [hr]
  have hrtU : rU.tags = tagAssocU := by rw [hrU]
  have hriU : rU.ingredients = ingAssocU := by rw [hrU]
  refine ⟨?_, ?_, ?_, ?_⟩
  · rw [hrt]
    refine perNameTag_of_goc hts rfl ?_
    rw [hdb2, setRecipe_tags]
    exact hfrI.2.1
  · rw [hri]
    refine perNameIng_of_goc his ?_ ?_
    · exact hfrT.2.1
    · rw [hdb2, setRecipe_ingredients]
  · rw [hrtU]
    refine perNameTag_of_goc htsU rfl ?_
    rw [hdb2U, setRecipe_tags]
    exact hfrIU.2.1
  · rw [hriU]
    refine perNameIng_of_goc hisU ?_ ?_
    · exact hfrTU.2.1
    · rw [hdb2U, setRecipe_ingredients]

/-- Witness for C1: against `dbW`, account 1 creates recipe `dW` (existing
"Tag1"/"Ing1" are attached, fresh "TagNew"/"IngNew" are created) and updates
recipe 1 with `pW2`. -/
theorem reconcile_get_or_create_per_name_witness :
    (∀ n ∈ dW.tags, PerNameTagOutcome dbW db2CW 1 rCW.tags n) ∧
    (∀ n ∈ dW.ingredients, PerNameIngOutcome dbW db2CW 1 rCW.ingredients n) ∧
    (∀ n ∈ ["Tag2"], PerNameTagOutcome dbW db2UW 1 rUW.tags n) ∧
    (∀ n ∈ ["Ing1"], PerNameIngOutcome dbW db2UW 1 rUW.ingredients n) :=
  reconcile_get_or_create_per_name dbW db2CW dbW db2UW 1 dW 1 pW2 rCW rUW
    ["Tag2"] ["Ing1"] (by decide) (by decide) (by decide) (by decide)

theorem gocTags_idem (u : UserId) (names : List String) :
    ∀ (db : Db) (assoc : List Nat),
      (∀ n ∈ names, ∃ t, db.tags.filter (tagMatch u n) = [t] ∧ t.id ∈ assoc) →
      get_or_create_tags u db names assoc = .ok (assoc, db) := by
  induction names with
  | nil =>
    intro db assoc _
    rfl
  | cons n rest ih =>
    intro db assoc hprop
    obtain ⟨t, hft, hid⟩ := hprop n (List.mem_cons_self n rest)
    have hg : tagGetOrCreate db u n = .ok (t, db) := by
      unfold tagGetOrCreate
      rw [hft]
    unfold get_or_create_tags
    rw [hg]
    show get_or_create_tags u db rest (m2mAdd assoc t.id) = .ok (assoc, db)
    have hm : m2mAdd assoc t.id = assoc := by
      unfold m2mAdd
      rw [if_pos hid]
    rw [hm]
    exact ih db assoc (fun n' hn' => hprop n' (List.mem_cons_of_mem n hn'))

theorem gocIngs_idem (u : UserId) (names : List String) :
    ∀ (db : Db) (assoc : List Nat),
      (∀ n ∈ names,
         ∃ i, db.ingredients.filter (ingMatch u n) = [i] ∧ i.id ∈ assoc) →
      get_or_create_ingredients u db names assoc = .ok (assoc, db) := by
  induction names with
  | nil =>
    intro db assoc _
    rfl
  | cons n rest ih =>
    intro db assoc hprop
    obtain ⟨t, hft, hid⟩ := hprop n (List.mem_cons_self n rest)
    have hg : ingGetOrCreate db u n = .ok (t, db) := by
      unfold ingGetOrCreate
      rw [hft]
    unfold get_or_create_ingredients
    rw [hg]
    show get_or_create_ingredients u db rest (m2mAdd assoc t.id) = .ok (assoc, db)
    have hm : m2mAdd assoc t.id = assoc := by
      unfold m2mAdd
      rw [if_pos hid]
    rw [hm]
    exact ih db assoc (fun n' hn' => hprop n' (List.mem_cons_of_mem n hn'))

theorem gocTags_unique_filter {u : UserId} {names : List String} {db db' : Db}
    {assoc : List Nat}
    (h : get_or_create_tags u db names [] = .ok (assoc, db')) :
    ∀ n ∈ names, ∃ t, db'.tags.filter (tagMatch u n) = [t] ∧ t.id ∈ assoc := by
  obtain ⟨-, -, -, -, -, -, -, Pper, -⟩ :=
    gocTags_spec u names db [] assoc db' h
  intro n hn
  obtain ⟨-, hone, t', ht', hu', hn', hid', -, -⟩ := Pper n hn
  obtain ⟨x, hx⟩ := List.length_eq_one.1 hone
  have hmem : t' ∈ db'.tags.filter (tagMatch u n) :=
    List.mem_filter.2 ⟨ht', tagMatch_iff.2 ⟨hu', hn'⟩⟩
  rw [hx, List.mem_singleton] at hmem
  exact ⟨x, hx, hmem ▸ hid'⟩

theorem gocIngs_unique_filter {u : UserId} {names : List String} {db db' : Db}
    {assoc : List Nat}
    (h : get_or_create_ingredients u db names [] = .ok (assoc, db')) :
    ∀ n ∈ names,
      ∃ i, db'.ingredients.filter (ingMatch u n) = [i] ∧ i.id ∈ assoc := by
  obtain ⟨-, -, -, -, -, -, -, Pper, -⟩ :=
    gocIngs_spec u names db [] assoc db' h
  intro n hn
  obtain ⟨-, hone, t', ht', hu', hn', hid', -, -⟩ := Pper n hn
  obtain ⟨x, hx⟩ := List.length_eq_one.1 hone
  have hmem : t' ∈ db'.ingredients.filter (ingMatch u n) :=
    List.mem_filter.2 ⟨ht', ingMatch_iff.2 ⟨hu', hn'⟩⟩
  rw [hx, List.mem_singleton] at hmem
  exact ⟨x, hx, hmem ▸ hid'⟩

/-- C9: reconciling a descriptor list containing a duplicated name still
leaves exactly one row with that name for the account, attached to the
recipe exactly once; and running the same reconciliation a second time from
the resulting state is a no-op — it succeeds and returns the same
association set and the same store. -/
theorem reconcile_duplicate_names_idempotent
    (dbT dbT' dbI dbI' : Db) (u : UserId)
    (tagNames ingNames : List String) (assocT assocI : List Nat)
    (nT nI : String)
    (hT : get_or_create_tags u dbT tagNames [] = .ok (assocT, dbT'))
    (hI : get_or_create_ingredients u dbI ingNames [] = .ok (assocI, dbI'))
    (hdupT : 1 < tagNames.count nT) (hdupI : 1 < ingNames.count nI) :
    (countTags dbT' u nT = 1 ∧
     ∃ t ∈ dbT'.tags, t.user = u ∧ t.name = nT ∧ assocT.count t.id = 1) ∧
    (countIngs dbI' u nI = 1 ∧
     ∃ i ∈ dbI'.ingredients, i.user = u ∧ i.name = nI ∧
       assocI.count i.id = 1) ∧
    get_or_create_tags u dbT' tagNames assocT = .ok (assocT, dbT') ∧
    get_or_create_ingredients u dbI' ingNames assocI =
      .ok (assocI, dbI') := by
  have hmemT : nT ∈ tagNames := List.count_pos_iff.1 (by omega)
  have hmemI : nI ∈ ingNames := List.count_pos_iff.1 (by omega)
  obtain ⟨-, -, -, -, -, -, PndT, PperT, -⟩ :=
    gocTags_spec u tagNames dbT [] assocT dbT' hT
  obtain ⟨-, -, -, -, -, -, PndI, PperI, -⟩ :=
    gocIngs_spec u ingNames dbI [] assocI dbI' hI
  have hndT : assocT.Nodup := PndT (List.nodup_nil)
  have hndI : assocI.Nodup := PndI (List.nodup_nil)
  obtain ⟨-, honeT, t, htmem, htu, htn, htid, -, -⟩ := PperT nT hmemT
  obtain ⟨-, honeI, i, himem, hiu, hin, hiid, -, -⟩ := PperI nI hmemI
  refine ⟨⟨honeT, t, htmem, htu, htn,
      List.count_eq_one_of_mem hndT htid⟩,
    ⟨honeI, i, himem, hiu, hin, List.count_eq_one_of_mem hndI hiid⟩,
    gocTags_idem u tagNames dbT' assocT (gocTags_unique_filter hT),
    gocIngs_idem u ingNames dbI' assocI (gocIngs_unique_filter hI)⟩

/-- Witness for C9: reconciling the duplicated lists
`["Dup", "Tag1", "Dup"]` and `["Ing1", "Ing1"]` against `dbW`. -/
theorem reconcile_duplicate_names_idempotent_witness :
    (countTags ⟨[⟨1, "a@x.com", "h1", "A"⟩, ⟨2, "b@x.com", "h2", "B"⟩],
       [⟨1, 1, "Tag1"⟩, ⟨2, 2, "TagB"⟩, ⟨3, 1, "Dup"⟩], [⟨1, 1, "Ing1"⟩],
       [⟨1, 1, "R1", 5, 10, "l", "d", [1], [1]⟩,
        ⟨2, 2, "R2", 7, 20, "l2", "d2", [2], []⟩], 3, 4, 2, 3⟩ 1 "Dup" = 1 ∧
     ∃ t ∈ ([⟨1, 1, "Tag1"⟩, ⟨2, 2, "TagB"⟩, ⟨3, 1, "Dup"⟩] : List Tag),
       t.user = 1 ∧ t.name = "Dup" ∧ ([3, 1] : List Nat).count t.id = 1) ∧
    (countIngs ⟨[⟨1, "a@x.com", "h1", "A"⟩, ⟨2, "b@x.com", "h2", "B"⟩],
       [⟨1, 1, "Tag1"⟩, ⟨2, 2, "TagB"⟩], [⟨1, 1, "Ing1"⟩],
       [⟨1, 1, "R1", 5, 10, "l", "d", [1], [1]⟩,
        ⟨2, 2, "R2", 7, 20, "l2", "d2", [2], []⟩], 3, 3, 2, 3⟩ 1 "Ing1" = 1 ∧
     ∃ i ∈ ([⟨1, 1, "Ing1"⟩] : List Ingredient),
       i.user = 1 ∧ i.name = "Ing1" ∧ ([1] : List Nat).count i.id = 1) ∧
    get_or_create_tags 1
      ⟨[⟨1, "a@x.com", "h1", "A"⟩, ⟨2, "b@x.com", "h2", "B"⟩],
       [⟨1, 1, "Tag1"⟩, ⟨2, 2, "TagB"⟩, ⟨3, 1, "Dup"⟩], [⟨1, 1, "Ing1"⟩],
       [⟨1, 1, "R1", 5, 10, "l", "d", [1], [1]⟩,
        ⟨2, 2, "R2", 7, 20, "l2", "d2", [2], []⟩], 3, 4, 2, 3⟩
      ["Dup", "Tag1", "Dup"] [3, 1] =
      .ok ([3, 1],
        ⟨[⟨1, "a@x.com", "h1", "A"⟩, ⟨2, "b@x.com", "h2", "B"⟩],
         [⟨1, 1, "Tag1"⟩, ⟨2, 2, "TagB"⟩, ⟨3, 1, "Dup"⟩], [⟨1, 1, "Ing1"⟩],
         [⟨1, 1, "R1", 5, 10, "l", "d", [1], [1]⟩,
          ⟨2, 2, "R2", 7, 20, "l2", "d2", [2], []⟩], 3, 4, 2, 3⟩) ∧
    get_or_create_ingredients 1
      ⟨[⟨1, "a@x.com", "h1", "A"⟩, ⟨2, "b@x.com", "h2", "B"⟩],
       [⟨1, 1, "Tag1"⟩, ⟨2, 2, "TagB"⟩], [⟨1, 1, "Ing1"⟩],
       [⟨1, 1, "R1", 5, 10, "l", "d", [1], [1]⟩,
        ⟨2, 2, "R2", 7, 20, "l2", "d2", [2], []⟩], 3, 3, 2, 3⟩
      ["Ing1", "Ing1"] [1] =
      .ok ([1],
        ⟨[⟨1, "a@x.com", "h1", "A"⟩, ⟨2, "b@x.com", "h2", "B"⟩],
         [⟨1, 1, "Tag1"⟩, ⟨2, 2, "TagB"⟩], [⟨1, 1, "Ing1"⟩],
         [⟨1, 1, "R1", 5, 10, "l", "d", [1], [1]⟩,
          ⟨2, 2, "R2", 7, 20, "l2", "d2", [2], []⟩], 3, 3, 2, 3⟩) :=
  reconcile_duplicate_names_idempotent dbW
    ⟨[⟨1, "a@x.com", "h1", "A"⟩, ⟨2, "b@x.com", "h2", "B"⟩],
     [⟨1, 1, "Tag1"⟩, ⟨2, 2, "TagB"⟩, ⟨3, 1, "Dup"⟩], [⟨1, 1, "Ing1"⟩],
     [⟨1, 1, "R1", 5, 10, "l", "d", [1], [1]⟩,
      ⟨2, 2, "R2", 7, 20, "l2", "d2", [2], []⟩], 3, 4, 2, 3⟩
    dbW
    ⟨[⟨1, "a@x.com", "h1", "A"⟩, ⟨2, "b@x.com", "h2", "B"⟩],
     [⟨1, 1, "Tag1"⟩, ⟨2, 2, "TagB"⟩], [⟨1, 1, "Ing1"⟩],
     [⟨1, 1, "R1", 5, 10, "l", "d", [1], [1]⟩,
      ⟨2, 2, "R2", 7, 20, "l2", "d2", [2], []⟩], 3, 3, 2, 3⟩
    1 ["Dup", "Tag1", "Dup"] ["Ing1", "Ing1"] [3, 1] [1] "Dup" "Ing1"
    (by decide) (by decide) (by decide) (by decide)

/-- A raw PATCH body carrying a `user` key alongside a title change. -/
def rawW : RawRecipePatch :=
  ⟨some "NewT", none, none, none, none, none, none, some 2⟩

/-- The recipe resulting from applying `rawW` to recipe 1 in `dbW` — the
title changes, the owner does not. -/
def rW3 : Recipe := ⟨1, 1, "NewT", 5, 10, "l", "d", [1], [1]⟩

/-- The store after applying `rawW` to recipe 1 in `dbW`. -/
def db2W3 : Db :=
  ⟨[⟨1, "a@x.com", "h1", "A"⟩, ⟨2, "b@x.com", "h2", "B"⟩],
   [⟨1, 1, "Tag1"⟩, ⟨2, 2, "TagB"⟩],
   [⟨1, 1, "Ing1"⟩],
   [rW3, ⟨2, 2, "R2", 7, 20, "l2", "d2", [2], []⟩],
   3, 3, 2, 3⟩

/-- C10: a recipe's owner is immutable through the update endpoints.  A
`user` key in the raw body is silently dropped by validation — the request
behaves exactly as if the key were absent (for PATCH, and for PUT when all
writable fields are provided) — and on success the stored owner equals the
owner before the operation. -/
theorem recipe_owner_immutable
    (db db2 : Db) (u : UserId) (rid : Nat) (raw : RawRecipePatch)
    (r inst : Recipe) (x : UserId)
    (hfind : findOwnedRecipe db u rid = some inst)
    (h : runPatchRecipeRaw db u rid raw = (.ok r, db2)) :
    runPatchRecipeRaw db u rid { raw with user := some x } =
      runPatchRecipeRaw db u rid { raw with user := none } ∧
    runPatchRecipeRaw db u rid { raw with user := some x } =
      runPatchRecipeRaw db u rid raw ∧
    r.user = inst.user := by
  refine ⟨rfl, rfl, ?_⟩
  have h' : runUpdateRecipe db u rid (validateRecipePatch raw) =
      (.ok r, db2) := h
  obtain ⟨inst', hf', hser⟩ := runUpdateRecipe_ok h'
  obtain rfl : inst = inst' := Option.some_injective _ (hfind.symm.trans hf')
  obtain ⟨tagAssoc, db1, ingAssoc, dbI, -, -, hr, -⟩ :=
    serializerUpdate_ok hser
  rw [hr]

/-- Witness for C10: patching recipe 1 of account 1 in `dbW` with a body
that tries to set `user := 2`. -/
theorem recipe_owner_immutable_witness :
    runPatchRecipeRaw dbW 1 1 { rawW with user := some 2 } =
      runPatchRecipeRaw dbW 1 1 { rawW with user := none } ∧
    runPatchRecipeRaw dbW 1 1 { rawW with user := some 2 } =
      runPatchRecipeRaw dbW 1 1 rawW ∧
    rW3.user = instW.user :=
  recipe_owner_immutable dbW db2W3 1 1 rawW rW3 instW 2
    (by decide) (by decide)

theorem updTagsStep_frame {db : Db} {u : UserId} {inst : Recipe}
    {p : RecipePayload} {a : List Nat} {db1 : Db}
    (h : updTagsStep db u inst p = .ok (a, db1)) :
    db1.recipes = db.recipes ∧ db1.ingredients = db.ingredients := by
  unfold updTagsStep at h
  rcases hpt : p.tags with _ | names <;> rw [hpt] at h
  · simp only [Except.ok.injEq, Prod.mk.injEq] at h
    rw [← h.2]
    exact ⟨rfl, rfl⟩
  · have hfr := (gocTags_spec u names db [] a db1 h).1
    exact ⟨hfr.2.2.1, hfr.2.1⟩

theorem updIngsStep_frame {db : Db} {u : UserId} {inst : Recipe}
    {p : RecipePayload} {a : List Nat} {db1 : Db}
    (h : updIngsStep db u inst p = .ok (a, db1)) :
    db1.recipes = db.recipes ∧ db1.tags = db.tags := by
  unfold updIngsStep at h
  rcases hpi : p.ingredients with _ | names <;> rw [hpi] at h
  · simp only [Except.ok.injEq, Prod.mk.injEq] at h
    rw [← h.2]
    exact ⟨rfl, rfl⟩
  · have hfr := (gocIngs_spec u names db [] a db1 h).1
    exact ⟨hfr.2.2.1, hfr.2.1⟩

/-- C5: every recipe write request is all-or-nothing.  A request answered
with an error leaves the store exactly in its pre-request state; a
successful request stores a recipe reflecting, together, the scalar-field
assignments and the full relation-set reconciliation of that one request. -/
theorem recipe_write_all_or_nothing
    (db dbU dbC : Db) (u : UserId) (rid : Nat) (p : RecipePayload)
    (d : RecipeCreateData)
    (respU respC : Except ApiError Recipe)
    (hU : runUpdateRecipe db u rid p = (respU, dbU))
    (hC : runCreateRecipe db u d = (respC, dbC)) :
    (∀ e, respU = .error e → dbU = db) ∧
    (∀ e, respC = .error e → dbC = db) ∧
    (∀ r, respU = .ok r →
       ∃ inst tagAssoc db1 ingAssoc dbI,
         findOwnedRecipe db u rid = some inst ∧
         updTagsStep db u inst p = .ok (tagAssoc, db1) ∧
         updIngsStep db1 u inst p = .ok (ingAssoc, dbI) ∧
         r = { inst with
           title := p.title.getD inst.title,
           time_minutes := p.time_minutes.getD inst.time_minutes,
           price := p.price.getD inst.price,
           link := p.link.getD inst.link,
           description := p.description.getD inst.description,
           tags := tagAssoc, ingredients := ingAssoc } ∧
         dbU = setRecipe dbI r ∧ r ∈ dbU.recipes) ∧
    (∀ r, respC = .ok r →
       ∃ tagAssoc db1 ingAssoc dbI,
         get_or_create_tags u (insertRecipeRow db u d) d.tags [] =
           .ok (tagAssoc, db1) ∧
         get_or_create_ingredients u db1 d.ingredients [] =
           .ok (ingAssoc, dbI) ∧
         r = { (newRecipeRow db u d) with
               tags := tagAssoc, ingredients := ingAssoc } ∧
         dbC = setRecipe dbI r ∧ r ∈ dbC.recipes) := by
  refine ⟨?_, ?_, ?_, ?_⟩
  · intro e he
    rw [he] at hU
    exact runUpdateRecipe_err hU
  · intro e he
    rw [he] at hC
    exact runCreateRecipe_err hC
  · intro r hrr
    rw [hrr] at hU
    obtain ⟨inst, hfind, hser⟩ := runUpdateRecipe_ok hU
    obtain ⟨tagAssoc, db1, ingAssoc, dbI, hts, his, hr, hdb2⟩ :=
      serializerUpdate_ok hser
    refine ⟨inst, tagAssoc, db1, ingAssoc, dbI, hfind, hts, his, hr, hdb2, ?_⟩
    rw [hdb2]
    refine mem_setRecipe_self inst ?_ (by rw [hr])
    rw [(updIngsStep_frame his).1, (updTagsStep_frame hts).1]
    exact (findOwnedRecipe_some hfind).1
  · intro r hrr
    rw [hrr] at hC
    obtain ⟨tagAssoc, db1, ingAssoc, dbI, hts, his, hr, hdb2⟩ :=
      serializerCreate_ok (runCreateRecipe_ok hC)
    refine ⟨tagAssoc, db1, ingAssoc, dbI, hts, his, hr, hdb2, ?_⟩
    rw [hdb2]
    refine mem_setRecipe_self (newRecipeRow db u d) ?_ (by rw [hr])
    have h1 : db1.recipes = (insertRecipeRow db u d).recipes :=
      ((gocTags_spec u d.tags (insertRecipeRow db u d) [] tagAssoc db1
        hts).1).2.2.1
    have h2 : dbI.recipes = db1.recipes :=
      ((gocIngs_spec u d.ingredients db1 [] ingAssoc dbI his).1).2.2.1
    rw [h2, h1]
    show newRecipeRow db u d ∈ db.recipes ++ [newRecipeRow db u d]
    exact List.mem_append_right db.recipes (List.mem_singleton_self _)

/-- A store holding two same-named tag rows for account 1 — the state in
which `get_or_create` fails mid-reconciliation. -/
def dbDup : Db :=
  ⟨[⟨1, "a@x.com", "h1", "A"⟩], [⟨1, 1, "X"⟩, ⟨2, 1, "X"⟩], [],
   [⟨1, 1, "R1", 5, 10, "l", "d", [], []⟩], 2, 3, 1, 2⟩

/-- A PATCH payload naming the duplicated tag. -/
def pDup : RecipePayload := ⟨none, none, none, none, none, some ["X"], none⟩

/-- Create data naming the duplicated tag. -/
def dDup : RecipeCreateData := ⟨"T", 1, 2, "lk", "ds", ["X"], []⟩

/-- Witness for C5: against `dbDup`, both a recipe update naming tag "X"
and a recipe create naming it fail mid-reconciliation, and the store is
returned unchanged. -/
theorem recipe_write_all_or_nothing_witness :
    (∀ e, (Except.error ApiError.serverError : Except ApiError Recipe) =
        .error e → dbDup = dbDup) ∧
    (∀ e, (Except.error ApiError.serverError : Except ApiError Recipe) =
        .error e → dbDup = dbDup) ∧
    (∀ r, (Except.error ApiError.serverError : Except ApiError Recipe) =
        .ok r →
       ∃ inst tagAssoc db1 ingAssoc dbI,
         findOwnedRecipe dbDup 1 1 = some inst ∧
         updTagsStep dbDup 1 inst pDup = .ok (tagAssoc, db1) ∧
         updIngsStep db1 1 inst pDup = .ok (ingAssoc, dbI) ∧
         r = { inst with
           title := pDup.title.getD inst.title,
           time_minutes := pDup.time_minutes.getD inst.time_minutes,
           price := pDup.price.getD inst.price,
           link := pDup.link.getD inst.link,
           description := pDup.description.getD inst.description,
           tags := tagAssoc, ingredients := ingAssoc } ∧
         dbDup = setRecipe dbI r ∧ r ∈ dbDup.recipes) ∧
    (∀ r, (Except.error ApiError.serverError : Except ApiError Recipe) =
        .ok r →
       ∃ tagAssoc db1 ingAssoc dbI,
         get_or_create_tags 1 (insertRecipeRow dbDup 1 dDup) dDup.tags [] =
           .ok (tagAssoc, db1) ∧
         get_or_create_ingredients 1 db1 dDup.ingredients [] =
           .ok (ingAssoc, dbI) ∧
         r = { (newRecipeRow dbDup 1 dDup) with
               tags := tagAssoc, ingredients := ingAssoc } ∧
         dbDup = setRecipe dbI r ∧ r ∈ dbDup.recipes) :=
  recipe_write_all_or_nothing dbDup dbDup dbDup 1 1 pDup dDup
    (.error .serverError) (.error .serverError) (by decide) (by decide)

/-- The ownership invariant of the data model for tags: every tag row
referenced by a recipe's tag set is owned by the recipe's owner. -/
def RecipeTagOwnership (db : Db) : Prop :=
  ∀ r ∈ db.recipes, ∀ t ∈ db.tags, t.id ∈ r.tags → t.user = r.user

/-- The ownership invariant for ingredients. -/
def RecipeIngOwnership (db : Db) : Prop :=
  ∀ r ∈ db.recipes, ∀ i ∈ db.ingredients, i.id ∈ r.ingredients →
    i.user = r.user

/-- Referential integrity plus ownership for tag references: every
association id resolves to a tag row of the recipe's owner. -/
def refsOwnedT (db : Db) : Prop :=
  ∀ r ∈ db.recipes, ∀ iid ∈ r.tags,
    ∃ t ∈ db.tags, t.id = iid ∧ t.user = r.user

/-- Referential integrity plus ownership for ingredient references. -/
def refsOwnedI (db : Db) : Prop :=
  ∀ r ∈ db.recipes, ∀ iid ∈ r.ingredients,
    ∃ i ∈ db.ingredients, i.id = iid ∧ i.user = r.user

/-- Well-formedness of a store: primary-key discipline of both name tables
and owned referential integrity of both association dimensions.  This holds
of every store reachable through the modelled operations. -/
def Wf (db : Db) : Prop :=
  tagIdsOk db ∧ ingIdsOk db ∧ refsOwnedT db ∧ refsOwnedI db

theorem wf_ownership {db : Db} (h : Wf db) :
    RecipeTagOwnership db ∧ RecipeIngOwnership db := by
  obtain ⟨⟨hndT, -⟩, ⟨hndI, -⟩, hrT, hrI⟩ := h
  constructor
  · intro r hr t ht hid
    obtain ⟨t', ht', hteq, htu⟩ := hrT r hr t.id hid
    have : t' = t := List.inj_on_of_nodup_map hndT ht' ht hteq
    rw [← this]
    exact htu
  · intro r hr i hi hid
    obtain ⟨i', hi', hieq, hiu⟩ := hrI r hr i.id hid
    have : i' = i := List.inj_on_of_nodup_map hndI hi' hi hieq
    rw [← this]
    exact hiu

theorem wf_goc_tags {u : UserId} {names : List String} {db : Db}
    {assoc assoc' : List Nat} {db1 : Db}
    (h : get_or_create_tags u db names assoc = .ok (assoc', db1))
    (hwf : Wf db) : Wf db1 := by
  obtain ⟨hfr, ⟨ts, hts, -⟩, -, hids, -, -, -, -, -⟩ :=
    gocTags_spec u names db assoc assoc' db1 h
  obtain ⟨hT, hI, hrT, hrI⟩ := hwf
  refine ⟨hids hT, ?_, ?_, ?_⟩
  · unfold ingIdsOk
    rw [hfr.2.1, hfr.2.2.2.2.1]
    exact hI
  · intro r hr iid hiid
    rw [hfr.2.2.1] at hr
    obtain ⟨t, ht, hteq, htu⟩ := hrT r hr iid hiid
    exact ⟨t, by rw [hts]; exact List.mem_append_left ts ht, hteq, htu⟩
  · intro r hr iid hiid
    rw [hfr.2.2.1] at hr
    obtain ⟨i, hi, hieq, hiu⟩ := hrI r hr iid hiid
    exact ⟨i, by rw [hfr.2.1]; exact hi, hieq, hiu⟩

theorem wf_goc_ings {u : UserId} {names : List String} {db : Db}
    {assoc assoc' : List Nat} {db1 : Db}
    (h : get_or_create_ingredients u db names assoc = .ok (assoc', db1))
    (hwf : Wf db) : Wf db1 := by
  obtain ⟨hfr, ⟨ts, hts, -⟩, -, hids, -, -, -, -, -⟩ :=
    gocIngs_spec u names db assoc assoc' db1 h
  obtain ⟨hT, hI, hrT, hrI⟩ := hwf
  refine ⟨?_, hids hI, ?_, ?_⟩
  · unfold tagIdsOk
    rw [hfr.2.1, hfr.2.2.2.2.1]
    exact hT
  · intro r hr iid hiid
    rw [hfr.2.2.1] at hr
    obtain ⟨t, ht, hteq, htu⟩ := hrT r hr iid hiid
    exact ⟨t, by rw [hfr.2.1]; exact ht, hteq, htu⟩
  · intro r hr iid hiid
    rw [hfr.2.2.1] at hr
    obtain ⟨i, hi, hieq, hiu⟩ := hrI r hr iid hiid
    exact ⟨i, by rw [hts]; exact List.mem_append_left ts hi, hieq, hiu⟩

theorem wf_setRecipe {db : Db} {r : Recipe} (hwf : Wf db)
    (hT : ∀ iid ∈ r.tags, ∃ t ∈ db.tags, t.id = iid ∧ t.user = r.user)
    (hI : ∀ iid ∈ r.ingredients,
        ∃ i ∈ db.ingredients, i.id = iid ∧ i.user = r.user) :
    Wf (setRecipe db r) := by
  obtain ⟨hidsT, hidsI, hrT, hrI⟩ := hwf
  refine ⟨hidsT, hidsI, ?_, ?_⟩
  · intro q hq iid hiid
    unfold setRecipe at hq
    simp only [List.mem_map] at hq
    obtain ⟨x, hx, hxeq⟩ := hq
    by_cases hxid : (x.id == r.id) = true
    · rw [if_pos hxid] at hxeq
      subst hxeq
      exact hT iid hiid
    · rw [if_neg hxid] at hxeq
      subst hxeq
      exact hrT x hx iid hiid
  · intro q hq iid hiid
    unfold setRecipe at hq
    simp only [List.mem_map] at hq
    obtain ⟨x, hx, hxeq⟩ := hq
    by_cases hxid : (x.id == r.id) = true
    · rw [if_pos hxid] at hxeq
      subst hxeq
      exact hI iid hiid
    · rw [if_neg hxid] at hxeq
      subst hxeq
      exact hrI x hx iid hiid

theorem tagIdsOk_snoc {db : Db} (h : tagIdsOk db) (u : UserId) (n : String) :
    tagIdsOk { db with
      tags := db.tags ++ [(⟨db.nextTagId, u, n⟩ : Tag)],
      nextTagId := db.nextTagId + 1 } := by
  obtain ⟨hnd, hbd⟩ := h
  constructor
  · show ((db.tags ++ [(⟨db.nextTagId, u, n⟩ : Tag)]).map Tag.id).Nodup
    rw [List.map_append, List.nodup_append]
    refine ⟨hnd, List.nodup_singleton _, ?_⟩
    intro a ha
    simp only [List.map_cons, List.map_nil, List.disjoint_singleton]
    obtain ⟨x, hx, hxid⟩ := List.mem_map.1 ha
    have hxb := hbd x hx
    show a ∉ [db.nextTagId]
    rw [List.mem_singleton]
    omega
  · intro x hx
    show x.id < db.nextTagId + 1
    rcases List.mem_append.1 hx with hx' | hx'
    · have := hbd x hx'
      omega
    · rw [List.mem_singleton] at hx'
      subst hx'
      show db.nextTagId < db.nextTagId + 1
      omega

theorem ingIdsOk_snoc {db : Db} (h : ingIdsOk db) (u : UserId) (n : String) :
    ingIdsOk { db with
      ingredients := db.ingredients ++ [(⟨db.nextIngredientId, u, n⟩ : Ingredient)],
      nextIngredientId := db.nextIngredientId + 1 } := by
  obtain ⟨hnd, hbd⟩ := h
  constructor
  · show ((db.ingredients ++ [(⟨db.nextIngredientId, u, n⟩ : Ingredient)]).map
      Ingredient.id).Nodup
    rw [List.map_append, List.nodup_append]
    refine ⟨hnd, List.nodup_singleton _, ?_⟩
    intro a ha
    simp only [List.map_cons, List.map_nil, List.disjoint_singleton]
    obtain ⟨x, hx, hxid⟩ := List.mem_map.1 ha
    have hxb := hbd x hx
    show a ∉ [db.nextIngredientId]
    rw [List.mem_singleton]
    omega
  · intro x hx
    show x.id < db.nextIngredientId + 1
    rcases List.mem_append.1 hx with hx' | hx'
    · have := hbd x hx'
      omega
    · rw [List.mem_singleton] at hx'
      subst hx'
      show db.nextIngredientId < db.nextIngredientId + 1
      omega

theorem wf_registerUser {db : Db} (hwf : Wf db) (e pw nm : String) :
    Wf (registerUser db e pw nm).2 := by
  unfold registerUser
  split
  · exact hwf
  · split
    · exact hwf
    · exact hwf

theorem wf_runCreateTag {db : Db} (hwf : Wf db) (u : UserId) (n : String) :
    Wf (runCreateTag db u n).2 := by
  obtain ⟨hT, hI, hrT, hrI⟩ := hwf
  refine ⟨tagIdsOk_snoc hT u n, hI, ?_, hrI⟩
  intro r hr iid hiid
  obtain ⟨t, ht, hteq, htu⟩ := hrT r hr iid hiid
  exact ⟨t, List.mem_append_left _ ht, hteq, htu⟩

theorem wf_runCreateIng {db : Db} (hwf : Wf db) (u : UserId) (n : String) :
    Wf (runCreateIng db u n).2 := by
  obtain ⟨hT, hI, hrT, hrI⟩ := hwf
  refine ⟨hT, ingIdsOk_snoc hI u n, hrT, ?_⟩
  intro r hr iid hiid
  obtain ⟨i, hi, hieq, hiu⟩ := hrI r hr iid hiid
  exact ⟨i, List.mem_append_left _ hi, hieq, hiu⟩

theorem wf_runPatchTag {db : Db} (hwf : Wf db) (u : UserId) (tid : Nat)
    (nm : String) : Wf (runPatchTag db u tid nm).2 := by
  unfold runPatchTag
  cases hf : findOwnedTag db u tid with
  | none => exact hwf
  | some t =>
    obtain ⟨htmem, htu, htid⟩ := findOwnedTag_some hf
    obtain ⟨⟨hnd, hbd⟩, hI, hrT, hrI⟩ := hwf
    have hpt : ∀ x ∈ db.tags,
        (Tag.id ∘ fun x => if x.id == tid then
          ({ t with name := nm } : Tag) else x) x = Tag.id x := by
      intro x hx
      by_cases hxe : (x.id == tid) = true
      · have hxeq : x.id = tid := by simpa using hxe
        simp only [Function.comp_apply, if_pos hxe]
        show t.id = x.id
        rw [htid, hxeq]
      · simp only [Function.comp_apply, if_neg hxe]
    have hids : (db.tags.map (fun x => if x.id == tid then
        ({ t with name := nm } : Tag) else x)).map Tag.id =
        db.tags.map Tag.id := by
      rw [List.map_map]
      exact List.map_congr_left hpt
    refine ⟨⟨?_, ?_⟩, hI, ?_, hrI⟩
    · show ((db.tags.map _).map Tag.id).Nodup
      rw [hids]
      exact hnd
    · intro x hx
      obtain ⟨y, hy, hyeq⟩ := List.mem_map.1 hx
      show x.id < db.nextTagId
      have : x.id = y.id := by
        rw [← hyeq]
        exact hpt y hy
      rw [this]
      exact hbd y hy
    · intro r hr iid hiid
      obtain ⟨t', ht', hteq, htu'⟩ := hrT r hr iid hiid
      refine ⟨if t'.id == tid then { t with name := nm } else t', ?_, ?_, ?_⟩
      · exact List.mem_map_of_mem _ ht'
      · by_cases hxe : (t'.id == tid) = true
        · rw [if_pos hxe]
          show t.id = iid
          have : t'.id = tid := by simpa using hxe
          rw [htid, ← this, hteq]
        · rw [if_neg hxe]
          exact hteq
      · by_cases hxe : (t'.id == tid) = true
        · rw [if_pos hxe]
          show t.user = r.user
          have hteq' : t'.id = t.id := by
            rw [htid]
            simpa using hxe
          have : t' = t := List.inj_on_of_nodup_map hnd ht' htmem hteq'
          rw [← this]
          exact htu'
        · rw [if_neg hxe]
          exact htu'

theorem wf_runPatchIng {db : Db} (hwf : Wf db) (u : UserId) (iid0 : Nat)
    (nm : String) : Wf (runPatchIng db u iid0 nm).2 := by
  unfold runPatchIng
  cases hf : findOwnedIng db u iid0 with
  | none => exact hwf
  | some t =>
    obtain ⟨htmem, htu, htid⟩ := findOwnedIng_some hf
    obtain ⟨hT, ⟨hnd, hbd⟩, hrT, hrI⟩ := hwf
    have hpt : ∀ x ∈ db.ingredients,
        (Ingredient.id ∘ fun x => if x.id == iid0 then
          ({ t with name := nm } : Ingredient) else x) x = Ingredient.id x := by
      intro x hx
      by_cases hxe : (x.id == iid0) = true
      · have hxeq : x.id = iid0 := by simpa using hxe
        simp only [Function.comp_apply, if_pos hxe]
        show t.id = x.id
        rw [htid, hxeq]
      · simp only [Function.comp_apply, if_neg hxe]
    have hids : (db.ingredients.map (fun x => if x.id == iid0 then
        ({ t with name := nm } : Ingredient) else x)).map Ingredient.id =
        db.ingredients.map Ingredient.id := by
      rw [List.map_map]
      exact List.map_congr_left hpt
    refine ⟨hT, ⟨?_, ?_⟩, hrT, ?_⟩
    · show ((db.ingredients.map _).map Ingredient.id).Nodup
      rw [hids]
      exact hnd
    · intro x hx
      obtain ⟨y, hy, hyeq⟩ := List.mem_map.1 hx
      show x.id < db.nextIngredientId
      have : x.id = y.id := by
        rw [← hyeq]
        exact hpt y hy
      rw [this]
      exact hbd y hy
    · intro r hr iid hiid
      obtain ⟨t', ht', hteq, htu'⟩ := hrI r hr iid hiid
      refine ⟨if t'.id == iid0 then { t with name := nm } else t', ?_, ?_, ?_⟩
      · exact List.mem_map_of_mem _ ht'
      · by_cases hxe : (t'.id == iid0) = true
        · rw [if_pos hxe]
          show t.id = iid
          have : t'.id = iid0 := by simpa using hxe
          rw [htid, ← this, hteq]
        · rw [if_neg hxe]
          exact hteq
      · by_cases hxe : (t'.id == iid0) = true
        · rw [if_pos hxe]
          show t.user = r.user
          have hteq' : t'.id = t.id := by
            rw [htid]
            simpa using hxe
          have : t' = t := List.inj_on_of_nodup_map hnd ht' htmem hteq'
          rw [← this]
          exact htu'
        · rw [if_neg hxe]
          exact htu'

theorem wf_runDeleteTag {db : Db} (hwf : Wf db) (u : UserId) (tid : Nat) :
    Wf (runDeleteTag db u tid).2 := by
  unfold runDeleteTag
  cases hf : findOwnedTag db u tid with
  | none => exact hwf
  | some t =>
    obtain ⟨⟨hnd, hbd⟩, hI, hrT, hrI⟩ := hwf
    refine ⟨⟨?_, ?_⟩, hI, ?_, ?_⟩
    · show (((db.tags.filter (fun x => x.id != tid))).map Tag.id).Nodup
      exact ((List.filter_sublist db.tags).map Tag.id).nodup hnd
    · intro x hx
      show x.id < db.nextTagId
      exact hbd x (List.mem_of_mem_filter hx)
    · intro q hq iid hiid
      simp only [List.mem_map] at hq
      obtain ⟨r, hr, rfl⟩ := hq
      have hiid' : iid ∈ r.tags.filter (fun i => i != tid) := hiid
      obtain ⟨hmem, hne⟩ := List.mem_filter.1 hiid'
      have hneq : iid ≠ tid := by simpa using hne
      obtain ⟨t', ht', hteq, htu'⟩ := hrT r hr iid hmem
      refine ⟨t', List.mem_filter.2 ⟨ht', by simp [hteq, hneq]⟩, hteq, htu'⟩
    · intro q hq iid hiid
      simp only [List.mem_map] at hq
      obtain ⟨r, hr, rfl⟩ := hq
      exact hrI r hr iid hiid

theorem wf_runDeleteIng {db : Db} (hwf : Wf db) (u : UserId) (iid0 : Nat) :
    Wf (runDeleteIng db u iid0).2 := by
  unfold runDeleteIng
  cases hf : findOwnedIng db u iid0 with
  | none => exact hwf
  | some t =>
    obtain ⟨hT, ⟨hnd, hbd⟩, hrT, hrI⟩ := hwf
    refine ⟨hT, ⟨?_, ?_⟩, ?_, ?_⟩
    · show (((db.ingredients.filter (fun x => x.id != iid0))).map
        Ingredient.id).Nodup
      exact ((List.filter_sublist db.ingredients).map Ingredient.id).nodup hnd
    · intro x hx
      show x.id < db.nextIngredientId
      exact hbd x (List.mem_of_mem_filter hx)
    · intro q hq iid hiid
      simp only [List.mem_map] at hq
      obtain ⟨r, hr, rfl⟩ := hq
      exact hrT r hr iid hiid
    · intro q hq iid hiid
      simp only [List.mem_map] at hq
      obtain ⟨r, hr, rfl⟩ := hq
      have hiid' : iid ∈ r.ingredients.filter (fun i => i != iid0) := hiid
      obtain ⟨hmem, hne⟩ := List.mem_filter.1 hiid'
      have hneq : iid ≠ iid0 := by simpa using hne
      obtain ⟨i', hi', hieq, hiu'⟩ := hrI r hr iid hmem
      refine ⟨i', List.mem_filter.2 ⟨hi', by simp [hieq, hneq]⟩, hieq, hiu'⟩

theorem wf_runDeleteRecipe {db : Db} (hwf : Wf db) (u : UserId) (rid : Nat) :
    Wf (runDeleteRecipe db u rid).2 := by
  unfold runDeleteRecipe
  cases hf : findOwnedRecipe db u rid with
  | none => exact hwf
  | some r =>
    obtain ⟨hT, hI, hrT, hrI⟩ := hwf
    refine ⟨hT, hI, ?_, ?_⟩
    · intro q hq iid hiid
      exact hrT q (List.mem_of_mem_filter hq) iid hiid
    · intro q hq iid hiid
      exact hrI q (List.mem_of_mem_filter hq) iid hiid

theorem wf_insertRecipeRow {db : Db} (hwf : Wf db) (u : UserId)
    (d : RecipeCreateData) : Wf (insertRecipeRow db u d) := by
  obtain ⟨hT, hI, hrT, hrI⟩ := hwf
  refine ⟨hT, hI, ?_, ?_⟩
  · intro r hr iid hiid
    rcases List.mem_append.1 hr with hr' | hr'
    · exact hrT r hr' iid hiid
    · rw [List.mem_singleton] at hr'
      subst hr'
      exact absurd hiid (List.not_mem_nil iid)
  · intro r hr iid hiid
    rcases List.mem_append.1 hr with hr' | hr'
    · exact hrI r hr' iid hiid
    · rw [List.mem_singleton] at hr'
      subst hr'
      exact absurd hiid (List.not_mem_nil iid)

theorem wf_runCreateRecipe {db : Db} (hwf : Wf db) (u : UserId)
    (d : RecipeCreateData) : Wf (runCreateRecipe db u d).2 := by
  rcases hres : runCreateRecipe db u d with ⟨resp, db2⟩
  show Wf db2
  cases resp with
  | error e =>
    rw [runCreateRecipe_err hres]
    exact hwf
  | ok r =>
    obtain ⟨tagAssoc, db1, ingAssoc, dbI, hts, his, hr, hdb2⟩ :=
      serializerCreate_ok (runCreateRecipe_ok hres)
    have hwf1 : Wf db1 := wf_goc_tags hts (wf_insertRecipeRow hwf u d)
    have hwfI : Wf dbI := wf_goc_ings his hwf1
    have hrt : r.tags = tagAssoc := by rw [hr]
    have hri : r.ingredients = ingAssoc := by rw [hr]
    have hru : r.user = u := by rw [hr]; rfl
    have hItags : dbI.tags = db1.tags :=
      ((gocIngs_spec u d.ingredients db1 [] ingAssoc dbI his).1).2.1
    rw [hdb2]
    refine wf_setRecipe hwfI ?_ ?_
    · rw [hrt, hru]
      obtain ⟨-, -, -, -, -, Pnew, -, -, -⟩ :=
        gocTags_spec u d.tags (insertRecipeRow db u d) [] tagAssoc db1 hts
      intro iid hiid
      rcases Pnew iid hiid with habs | ⟨t, ht, htu2, -, htid2⟩
      · exact absurd habs (List.not_mem_nil iid)
      · exact ⟨t, by rw [hItags]; exact ht, htid2, htu2⟩
    · rw [hri, hru]
      obtain ⟨-, -, -, -, -, Pnew, -, -, -⟩ :=
        gocIngs_spec u d.ingredients db1 [] ingAssoc dbI his
      intro iid hiid
      rcases Pnew iid hiid with habs | ⟨i, hi, hiu2, -, hiid2⟩
      · exact absurd habs (List.not_mem_nil iid)
      · exact ⟨i, hi, hiid2, hiu2⟩

theorem wf_runUpdateRecipe {db : Db} (hwf : Wf db) (u : UserId) (rid : Nat)
    (p : RecipePayload) : Wf (runUpdateRecipe db u rid p).2 := by
  rcases hres : runUpdateRecipe db u rid p with ⟨resp, db2⟩
  show Wf db2
  cases resp with
  | error e =>
    rw [runUpdateRecipe_err hres]
    exact hwf
  | ok r =>
    obtain ⟨inst, hfind, hser⟩ := runUpdateRecipe_ok hres
    obtain ⟨hinstmem, hinstu, -⟩ := findOwnedRecipe_some hfind
    obtain ⟨tagAssoc, db1, ingAssoc, dbI, hts, his, hr, hdb2⟩ :=
      serializerUpdate_ok hser
    have hwf1 : Wf db1 := by
      unfold updTagsStep at hts
      rcases hpt : p.tags with _ | names <;> rw [hpt] at hts
      · simp only [Except.ok.injEq, Prod.mk.injEq] at hts
        rw [← hts.2]
        exact hwf
      · exact wf_goc_tags hts hwf
    have hwfI : Wf dbI := by
      unfold updIngsStep at his
      rcases hpi : p.ingredients with _ | names <;> rw [hpi] at his
      · simp only [Except.ok.injEq, Prod.mk.injEq] at his
        rw [← his.2]
        exact hwf1
      · exact wf_goc_ings his hwf1
    have hrt : r.tags = tagAssoc := by rw [hr]
    have hri : r.ingredients = ingAssoc := by rw [hr]
    have hru : r.user = inst.user := by rw [hr]
    have hItags : dbI.tags = db1.tags := by
      unfold updIngsStep at his
      rcases hpi : p.ingredients with _ | names <;> rw [hpi] at his
      · simp only [Except.ok.injEq, Prod.mk.injEq] at his
        rw [← his.2]
      · exact ((gocIngs_spec u names db1 [] ingAssoc dbI his).1).2.1
    have h1ings : db1.ingredients = db.ingredients := by
      unfold updTagsStep at hts
      rcases hpt : p.tags with _ | names <;> rw [hpt] at hts
      · simp only [Except.ok.injEq, Prod.mk.injEq] at hts
        rw [← hts.2]
      · exact ((gocTags_spec u names db [] tagAssoc db1 hts).1).2.1
    rw [hdb2]
    refine wf_setRecipe hwfI ?_ ?_
    · rw [hrt, hru]
      unfold updTagsStep at hts
      rcases hpt : p.tags with _ | names <;> rw [hpt] at hts
      · simp only [Except.ok.injEq, Prod.mk.injEq] at hts
        obtain ⟨hta, hdb1⟩ := hts
        rw [← hta]
        intro iid hiid
        obtain ⟨t, ht, hteq, htu⟩ := hwf.2.2.1 inst hinstmem iid hiid
        refine ⟨t, ?_, hteq, htu⟩
        rw [hItags, ← hdb1]
        exact ht
      · obtain ⟨-, -, -, -, -, Pnew, -, -, -⟩ :=
          gocTags_spec u names db [] tagAssoc db1 hts
        intro iid hiid
        rcases Pnew iid hiid with habs | ⟨t, ht, htu2, -, htid2⟩
        · exact absurd habs (List.not_mem_nil iid)
        · refine ⟨t, by rw [hItags]; exact ht, htid2, ?_⟩
          rw [htu2, hinstu]
    · rw [hri, hru]
      unfold updIngsStep at his
      rcases hpi : p.ingredients with _ | names <;> rw [hpi] at his
      · simp only [Except.ok.injEq, Prod.mk.injEq] at his
        obtain ⟨hia, hdbI⟩ := his
        rw [← hia]
        intro iid hiid
        obtain ⟨i, hi, hieq, hiu⟩ := hwf.2.2.2 inst hinstmem iid hiid
        refine ⟨i, ?_, hieq, hiu⟩
        rw [← hdbI, h1ings]
        exact hi
      · obtain ⟨-, -, -, -, -, Pnew, -, -, -⟩ :=
          gocIngs_spec u names db1 [] ingAssoc dbI his
        intro iid hiid
        rcases Pnew iid hiid with habs | ⟨i, hi, hiu2, -, hiid2⟩
        · exact absurd habs (List.not_mem_nil iid)
        · refine ⟨i, hi, hiid2, ?_⟩
          rw [hiu2, hinstu]

/-- C3: in every well-formed store, each Tag and Ingredient referenced in a
Recipe's association sets is owned by the same account that owns the Recipe,
and this invariant is preserved by every modelled operation — registration,
direct tag/ingredient create, rename and delete, and recipe create, update
(whose reconciliation always scopes its lookup-or-create to the requesting
user) and delete. -/
theorem ownership_invariant_preserved
    (db : Db) (e pw nm : String) (u : UserId) (n : String)
    (tid iid rid : Nat) (d : RecipeCreateData) (p : RecipePayload)
    (hwf : Wf db) :
    (RecipeTagOwnership db ∧ RecipeIngOwnership db) ∧
    (RecipeTagOwnership (registerUser db e pw nm).2 ∧
     RecipeIngOwnership (registerUser db e pw nm).2) ∧
    (RecipeTagOwnership (runCreateTag db u n).2 ∧
     RecipeIngOwnership (runCreateTag db u n).2) ∧
    (RecipeTagOwnership (runPatchTag db u tid n).2 ∧
     RecipeIngOwnership (runPatchTag db u tid n).2) ∧
    (RecipeTagOwnership (runDeleteTag db u tid).2 ∧
     RecipeIngOwnership (runDeleteTag db u tid).2) ∧
    (RecipeTagOwnership (runCreateIng db u n).2 ∧
     RecipeIngOwnership (runCreateIng db u n).2) ∧
    (RecipeTagOwnership (runPatchIng db u iid n).2 ∧
     RecipeIngOwnership (runPatchIng db u iid n).2) ∧
    (RecipeTagOwnership (runDeleteIng db u iid).2 ∧
     RecipeIngOwnership (runDeleteIng db u iid).2) ∧
    (RecipeTagOwnership (runCreateRecipe db u d).2 ∧
     RecipeIngOwnership (runCreateRecipe db u d).2) ∧
    (RecipeTagOwnership (runUpdateRecipe db u rid p).2 ∧
     RecipeIngOwnership (runUpdateRecipe db u rid p).2) ∧
    (RecipeTagOwnership (runDeleteRecipe db u rid).2 ∧
     RecipeIngOwnership (runDeleteRecipe db u rid).2) :=
  ⟨wf_ownership hwf,
   wf_ownership (wf_registerUser hwf e pw nm),
   wf_ownership (wf_runCreateTag hwf u n),
   wf_ownership (wf_runPatchTag hwf u tid n),
   wf_ownership (wf_runDeleteTag hwf u tid),
   wf_ownership (wf_runCreateIng hwf u n),
   wf_ownership (wf_runPatchIng hwf u iid n),
   wf_ownership (wf_runDeleteIng hwf u iid),
   wf_ownership (wf_runCreateRecipe hwf u d),
   wf_ownership (wf_runUpdateRecipe hwf u rid p),
   wf_ownership (wf_runDeleteRecipe hwf u rid)⟩

/-- Witness for C3 at the concrete well-formed store `dbW`. -/
theorem ownership_invariant_preserved_witness :
    (RecipeTagOwnership dbW ∧ RecipeIngOwnership dbW) ∧
    (RecipeTagOwnership (registerUser dbW "c@x.com" "12345" "C").2 ∧
     RecipeIngOwnership (registerUser dbW "c@x.com" "12345" "C").2) ∧
    (RecipeTagOwnership (runCreateTag dbW 1 "Z").2 ∧
     RecipeIngOwnership (runCreateTag dbW 1 "Z").2) ∧
    (RecipeTagOwnership (runPatchTag dbW 1 1 "Z").2 ∧
     RecipeIngOwnership (runPatchTag dbW 1 1 "Z").2) ∧
    (RecipeTagOwnership (runDeleteTag dbW 1 1).2 ∧
     RecipeIngOwnership (runDeleteTag dbW 1 1).2) ∧
    (RecipeTagOwnership (runCreateIng dbW 1 "Z").2 ∧
     RecipeIngOwnership (runCreateIng dbW 1 "Z").2) ∧
    (RecipeTagOwnership (runPatchIng dbW 1 1 "Z").2 ∧
     RecipeIngOwnership (runPatchIng dbW 1 1 "Z").2) ∧
    (RecipeTagOwnership (runDeleteIng dbW 1 1).2 ∧
     RecipeIngOwnership (runDeleteIng dbW 1 1).2) ∧
    (RecipeTagOwnership (runCreateRecipe dbW 1 dW).2 ∧
     RecipeIngOwnership (runCreateRecipe dbW 1 dW).2) ∧
    (RecipeTagOwnership (runUpdateRecipe dbW 1 1 pW2).2 ∧
     RecipeIngOwnership (runUpdateRecipe dbW 1 1 pW2).2) ∧
    (RecipeTagOwnership (runDeleteRecipe dbW 1 1).2 ∧
     RecipeIngOwnership (runDeleteRecipe dbW 1 1).2) :=
  ownership_invariant_preserved dbW "c@x.com" "12345" "C" 1 "Z" 1 1 1 dW pW2
    (by unfold Wf tagIdsOk ingIdsOk refsOwnedT refsOwnedI; decide)

theorem list_any_congr {α : Type} {l : List α} {f g : α → Bool}
    (h : ∀ x ∈ l, f x = g x) : l.any f = l.any g := by
  induction l with
  | nil => rfl
  | cons x xs ih =>
    simp only [List.any_cons]
    rw [h x (List.mem_cons_self x xs),
      ih (fun y hy => h y (List.mem_cons_of_mem x hy))]

/-- The store with every record owned by account `a` removed; used to state
that another account's results are independent of `a`'s records. -/
def purgeUser (db : Db) (a : UserId) : Db :=
  { db with
    tags := db.tags.filter (fun t => t.user != a),
    ingredients := db.ingredients.filter (fun i => i.user != a),
    recipes := db.recipes.filter (fun r => r.user != a) }

/-- C4: for distinct accounts `a ≠ b`, records of `a` are invisible and
immutable through `b`'s credentials — `b`'s recipe, tag and ingredient
listings are identical whether or not `a`'s records exist, and `b`'s
detail, update and delete attempts on `a`'s records answer 404 (the
not-found error, never the forbidden one) and leave the store unchanged. -/
theorem cross_account_isolation
    (db : Db) (a b : UserId) (tIds iIds : Option (List Nat)) (ao : Bool)
    (r0 : Recipe) (t0 : Tag) (i0 : Ingredient) (p : RecipePayload)
    (nm : String)
    (hab : a ≠ b)
    (hr0 : r0 ∈ db.recipes) (hr0u : r0.user = a)
    (ht0 : t0 ∈ db.tags) (ht0u : t0.user = a)
    (hi0 : i0 ∈ db.ingredients) (hi0u : i0.user = a)
    (hndR : (db.recipes.map Recipe.id).Nodup)
    (hndT : (db.tags.map Tag.id).Nodup)
    (hndI : (db.ingredients.map Ingredient.id).Nodup) :
    listRecipesFiltered (purgeUser db a) b tIds iIds =
      listRecipesFiltered db b tIds iIds ∧
    listTags (purgeUser db a) b ao = listTags db b ao ∧
    listIngs (purgeUser db a) b ao = listIngs db b ao ∧
    runDetailRecipe db b r0.id = .error .notFound ∧
    runUpdateRecipe db b r0.id p = (.error .notFound, db) ∧
    runDeleteRecipe db b r0.id = (.error .notFound, db) ∧
    runDetailTag db b t0.id = .error .notFound ∧
    runPatchTag db b t0.id nm = (.error .notFound, db) ∧
    runDeleteTag db b t0.id = (.error .notFound, db) ∧
    runDetailIng db b i0.id = .error .notFound ∧
    runPatchIng db b i0.id nm = (.error .notFound, db) ∧
    runDeleteIng db b i0.id = (.error .notFound, db) ∧
    (.error .notFound : Except ApiError Recipe) ≠ .error .forbidden := by
  have hba : b ≠ a := Ne.symm hab
  have hRbase : (purgeUser db a).recipes.filter (fun r => r.user == b) =
      db.recipes.filter (fun r => r.user == b) := by
    show (db.recipes.filter (fun r => r.user != a)).filter
      (fun r => r.user == b) = _
    rw [List.filter_filter]
    apply List.filter_congr
    intro r _
    by_cases hrb : (r.user == b) = true
    · have hrbe : r.user = b := by simpa using hrb
      have : (r.user != a) = true := by
        simp [hrbe]
        exact hba
      rw [hrb, this]
      rfl
    · rw [Bool.eq_false_iff.2 hrb]
      simp
  have hTbase : (purgeUser db a).tags.filter (fun t => t.user == b) =
      db.tags.filter (fun t => t.user == b) := by
    show (db.tags.filter (fun t => t.user != a)).filter
      (fun t => t.user == b) = _
    rw [List.filter_filter]
    apply List.filter_congr
    intro t _
    by_cases htb : (t.user == b) = true
    · have htbe : t.user = b := by simpa using htb
      have : (t.user != a) = true := by
        simp [htbe]
        exact hba
      rw [htb, this]
      rfl
    · rw [Bool.eq_false_iff.2 htb]
      simp
  have hIbase : (purgeUser db a).ingredients.filter (fun i => i.user == b) =
      db.ingredients.filter (fun i => i.user == b) := by
    show (db.ingredients.filter (fun i => i.user != a)).filter
      (fun i => i.user == b) = _
    rw [List.filter_filter]
    apply List.filter_congr
    intro i _
    by_cases hib : (i.user == b) = true
    · have hibe : i.user = b := by simpa using hib
      have : (i.user != a) = true := by
        simp [hibe]
        exact hba
      rw [hib, this]
      rfl
    · rw [Bool.eq_false_iff.2 hib]
      simp
  have hAny : ∀ g : Recipe → Bool,
      (∀ r, g r = true → r.user = b) →
      (purgeUser db a).recipes.any g = db.recipes.any g := by
    intro g hg
    show (db.recipes.filter (fun r => r.user != a)).any g = db.recipes.any g
    rw [List.any_filter]
    apply list_any_congr
    intro r _
    by_cases hgr : g r = true
    · have : (r.user != a) = true := by
        simp [hg r hgr]
        exact hba
      rw [hgr, this]
      rfl
    · rw [Bool.eq_false_iff.2 hgr]
      simp
  have hfr : findOwnedRecipe db b r0.id = none := by
    unfold findOwnedRecipe ownedRecipes
    rw [List.find?_eq_none]
    intro x hx
    obtain ⟨hxmem, hxu⟩ := List.mem_filter.1 hx
    intro hxid
    have hxe : x.id = r0.id := by simpa using hxid
    have hxr : x = r0 := List.inj_on_of_nodup_map hndR hxmem hr0 hxe
    have : x.user = b := by simpa using hxu
    rw [hxr, hr0u] at this
    exact hab this
  have hft : findOwnedTag db b t0.id = none := by
    unfold findOwnedTag ownedTags
    rw [List.find?_eq_none]
    intro x hx
    obtain ⟨hxmem, hxu⟩ := List.mem_filter.1 hx
    intro hxid
    have hxe : x.id = t0.id := by simpa using hxid
    have hxr : x = t0 := List.inj_on_of_nodup_map hndT hxmem ht0 hxe
    have : x.user = b := by simpa using hxu
    rw [hxr, ht0u] at this
    exact hab this
  have hfi : findOwnedIng db b i0.id = none := by
    unfold findOwnedIng ownedIngs
    rw [List.find?_eq_none]
    intro x hx
    obtain ⟨hxmem, hxu⟩ := List.mem_filter.1 hx
    intro hxid
    have hxe : x.id = i0.id := by simpa using hxid
    have hxr : x = i0 := List.inj_on_of_nodup_map hndI hxmem hi0 hxe
    have : x.user = b := by simpa using hxu
    rw [hxr, hi0u] at this
    exact hab this
  refine ⟨?_, ?_, ?_, ?_, ?_, ?_, ?_, ?_, ?_, ?_, ?_, ?_, by simp⟩
  · unfold listRecipesFiltered
    rw [hRbase]
  · unfold listTags
    rw [hTbase]
    cases ao with
    | false => rfl
    | true =>
      have := hAny (fun r => r.user == b && r.tags.contains t0.id)
      apply congrArg
      apply congrArg
      apply List.filter_congr
      intro t _
      exact hAny (fun r => r.user == b && r.tags.contains t.id)
        (fun r hr => by
          simp only [Bool.and_eq_true, beq_iff_eq] at hr
          exact hr.1)
  · unfold listIngs
    rw [hIbase]
    cases ao with
    | false => rfl
    | true =>
      apply congrArg
      apply congrArg
      apply List.filter_congr
      intro i _
      exact hAny (fun r => r.user == b && r.ingredients.contains i.id)
        (fun r hr => by
          simp only [Bool.and_eq_true, beq_iff_eq] at hr
          exact hr.1)
  · unfold runDetailRecipe
    rw [hfr]
  · unfold runUpdateRecipe
    rw [hfr]
  · unfold runDeleteRecipe
    rw [hfr]
  · unfold runDetailTag
    rw [hft]
  · unfold runPatchTag
    rw [hft]
  · unfold runDeleteTag
    rw [hft]
  · unfold runDetailIng
    rw [hfi]
  · unfold runPatchIng
    rw [hfi]
  · unfold runDeleteIng
    rw [hfi]

/-- A two-account store where account 2 owns a recipe, a tag and an
ingredient; used by the C4 witness. -/
def dbW4 : Db :=
  ⟨[⟨1, "a@x.com", "h1", "A"⟩, ⟨2, "b@x.com", "h2", "B"⟩],
   [⟨1, 1, "Tag1"⟩, ⟨2, 2, "TagB"⟩],
   [⟨1, 1, "Ing1"⟩, ⟨2, 2, "IngB"⟩],
   [⟨1, 1, "R1", 5, 10, "l", "d", [1], [1]⟩,
    ⟨2, 2, "R2", 7, 20, "l2", "d2", [2], [2]⟩],
   3, 3, 3, 3⟩

/-- Witness for C4 at `dbW4`: account 1 acting on account 2's records. -/
theorem cross_account_isolation_witness :
    listRecipesFiltered (purgeUser dbW4 2) 1 (some [1, 2]) none =
      listRecipesFiltered dbW4 1 (some [1, 2]) none ∧
    listTags (purgeUser dbW4 2) 1 true = listTags dbW4 1 true ∧
    listIngs (purgeUser dbW4 2) 1 true = listIngs dbW4 1 true ∧
    runDetailRecipe dbW4 1 (⟨2, 2, "R2", 7, 20, "l2", "d2", [2], [2]⟩ :
      Recipe).id = .error .notFound ∧
    runUpdateRecipe dbW4 1 (⟨2, 2, "R2", 7, 20, "l2", "d2", [2], [2]⟩ :
      Recipe).id pW = (.error .notFound, dbW4) ∧
    runDeleteRecipe dbW4 1 (⟨2, 2, "R2", 7, 20, "l2", "d2", [2], [2]⟩ :
      Recipe).id = (.error .notFound, dbW4) ∧
    runDetailTag dbW4 1 (⟨2, 2, "TagB"⟩ : Tag).id = .error .notFound ∧
    runPatchTag dbW4 1 (⟨2, 2, "TagB"⟩ : Tag).id "Z" =
      (.error .notFound, dbW4) ∧
    runDeleteTag dbW4 1 (⟨2, 2, "TagB"⟩ : Tag).id =
      (.error .notFound, dbW4) ∧
    runDetailIng dbW4 1 (⟨2, 2, "IngB"⟩ : Ingredient).id =
      .error .notFound ∧
    runPatchIng dbW4 1 (⟨2, 2, "IngB"⟩ : Ingredient).id "Z" =
      (.error .notFound, dbW4) ∧
    runDeleteIng dbW4 1 (⟨2, 2, "IngB"⟩ : Ingredient).id =
      (.error .notFound, dbW4) ∧
    (.error .notFound : Except ApiError Recipe) ≠ .error .forbidden :=
  cross_account_isolation dbW4 2 1 (some [1, 2]) none true
    ⟨2, 2, "R2", 7, 20, "l2", "d2", [2], [2]⟩ ⟨2, 2, "TagB"⟩
    ⟨2, 2, "IngB"⟩ pW "Z" (by decide) (by decide) (by decide) (by decide)
    (by decide) (by decide) (by decide) (by decide) (by decide) (by decide)

theorem insertBy_perm {α : Type} (le : α → α → Bool) (a : α) :
    ∀ l : List α, (insertBy le a l).Perm (a :: l) := by
  intro l
  induction l with
  | nil => exact List.Perm.refl _
  | cons b l ih =>
    unfold insertBy
    by_cases h : le a b = true
    · rw [if_pos h]
    · rw [if_neg h]
      exact (List.Perm.cons b ih).trans (List.Perm.swap a b l)

theorem sortBy_perm {α : Type} (le : α → α → Bool) :
    ∀ l : List α, (sortBy le l).Perm l := by
  intro l
  induction l with
  | nil => exact List.Perm.refl _
  | cons a l ih =>
    unfold sortBy
    exact (insertBy_perm le a (sortBy le l)).trans (List.Perm.cons a ih)

theorem mem_sortBy {α : Type} {le : α → α → Bool} {x : α} {l : List α} :
    x ∈ sortBy le l ↔ x ∈ l :=
  (sortBy_perm le l).mem_iff

theorem nodup_sortBy {α : Type} {le : α → α → Bool} {l : List α}
    (h : l.Nodup) : (sortBy le l).Nodup :=
  (sortBy_perm le l).nodup_iff.2 h

theorem pairwise_insertBy {α : Type} {le : α → α → Bool}
    (htrans : ∀ x y z, le x y = true → le y z = true → le x z = true)
    (htot : ∀ x y, le x y = true ∨ le y x = true) (a : α) :
    ∀ l : List α, l.Pairwise (fun x y => le x y = true) →
      (insertBy le a l).Pairwise (fun x y => le x y = true) := by
  intro l
  induction l with
  | nil =>
    intro _
    simp [insertBy]
  | cons b l ih =>
    intro hp
    obtain ⟨hb, hl⟩ := List.pairwise_cons.1 hp
    unfold insertBy
    by_cases h : le a b = true
    · rw [if_pos h]
      refine List.pairwise_cons.2 ⟨?_, hp⟩
      intro x hx
      rcases List.mem_cons.1 hx with rfl | hx'
      · exact h
      · exact htrans a b x h (hb x hx')
    · rw [if_neg h]
      refine List.pairwise_cons.2 ⟨?_, ih hl⟩
      intro x hx
      have hmem := (insertBy_perm le a l).mem_iff.1 hx
      rcases List.mem_cons.1 hmem with heq | hx'
      · rw [heq]
        rcases htot a b with h' | h'
        · exact absurd h' h
        · exact h'
      · exact hb x hx'

theorem pairwise_sortBy {α : Type} {le : α → α → Bool}
    (htrans : ∀ x y z, le x y = true → le y z = true → le x z = true)
    (htot : ∀ x y, le x y = true ∨ le y x = true) :
    ∀ l : List α, (sortBy le l).Pairwise (fun x y => le x y = true) := by
  intro l
  induction l with
  | nil => exact List.Pairwise.nil
  | cons a l ih => exact pairwise_insertBy htrans htot a (sortBy le l) ih

theorem lexLe_total : ∀ cs ds : List Char,
    lexLe cs ds = true ∨ lexLe ds cs = true := by
  intro cs
  induction cs with
  | nil =>
    intro ds
    left
    rfl
  | cons c cs ih =>
    intro ds
    cases ds with
    | nil =>
      right
      rfl
    | cons d ds =>
      unfold lexLe
      by_cases h1 : c.toNat < d.toNat
      · left
        rw [if_pos h1]
      · by_cases h2 : d.toNat < c.toNat
        · right
          rw [if_pos h2]
        · rw [if_neg h1, if_neg h2, if_neg h2, if_neg h1]
          exact ih ds

theorem lexLe_trans : ∀ as bs cs : List Char,
    lexLe as bs = true → lexLe bs cs = true → lexLe as cs = true := by
  intro as
  induction as with
  | nil =>
    intro bs cs _ _
    rfl
  | cons a as ih =>
    intro bs cs h1 h2
    cases bs with
    | nil => exact absurd h1 (by simp [lexLe])
    | cons b bs =>
      cases cs with
      | nil => exact absurd h2 (by simp [lexLe])
      | cons c cs =>
        unfold lexLe at h1 h2 ⊢
        by_cases hab1 : a.toNat < b.toNat
        · by_cases hbc1 : b.toNat < c.toNat
          · rw [if_pos (show a.toNat < c.toNat by omega)]
          · rw [if_neg hbc1] at h2
            by_cases hbc2 : c.toNat < b.toNat
            · rw [if_pos hbc2] at h2
              exact absurd h2 (by simp)
            · rw [if_pos (show a.toNat < c.toNat by omega)]
        · rw [if_neg hab1] at h1
          by_cases hab2 : b.toNat < a.toNat
          · rw [if_pos hab2] at h1
            exact absurd h1 (by simp)
          · rw [if_neg hab2] at h1
            by_cases hbc1 : b.toNat < c.toNat
            · rw [if_pos (show a.toNat < c.toNat by omega)]
            · rw [if_neg hbc1] at h2
              by_cases hbc2 : c.toNat < b.toNat
              · rw [if_pos hbc2] at h2
                exact absurd h2 (by simp)
              · rw [if_neg hbc2] at h2
                rw [if_neg (show ¬a.toNat < c.toNat by omega),
                  if_neg (show ¬c.toNat < a.toNat by omega)]
                exact ih bs cs h1 h2

theorem strLe_total (a b : String) : strLe a b = true ∨ strLe b a = true :=
  lexLe_total a.data b.data

theorem strLe_trans {a b c : String} (h1 : strLe a b = true)
    (h2 : strLe b c = true) : strLe a c = true :=
  lexLe_trans a.data b.data c.data h1 h2

theorem mem_listRecipesFiltered {db : Db} {u : UserId}
    {tIds iIds : Option (List Nat)} {r : Recipe} :
    r ∈ listRecipesFiltered db u tIds iIds ↔
      r ∈ db.recipes ∧ r.user = u ∧
      (∀ l, tIds = some l → ∃ i ∈ l, i ∈ r.tags) ∧
      (∀ l, iIds = some l → ∃ i ∈ l, i ∈ r.ingredients) := by
  unfold listRecipesFiltered
  rw [mem_sortBy]
  rcases tIds with _ | tl <;> rcases iIds with _ | il <;>
    simp [List.mem_filter, List.any_eq_true, beq_iff_eq, and_assoc] <;>
    tauto

theorem sorted_listRecipesFiltered (db : Db) (u : UserId)
    (tIds iIds : Option (List Nat)) :
    (listRecipesFiltered db u tIds iIds).Pairwise
      (fun x y => y.id ≤ x.id) := by
  have htrans : ∀ x y z : Recipe, recipeIdGe x y = true →
      recipeIdGe y z = true → recipeIdGe x z = true := by
    intro x y z hxy hyz
    have h1 := of_decide_eq_true hxy
    have h2 := of_decide_eq_true hyz
    exact decide_eq_true (Nat.le_trans h2 h1)
  have htot : ∀ x y : Recipe,
      recipeIdGe x y = true ∨ recipeIdGe y x = true := by
    intro x y
    rcases Nat.le_total y.id x.id with h | h
    · exact Or.inl (decide_eq_true h)
    · exact Or.inr (decide_eq_true h)
  unfold listRecipesFiltered
  exact (pairwise_sortBy htrans htot _).imp (fun h => of_decide_eq_true h)

/-- C6: for every recipe listing with numeric id-list parameters, a recipe
is returned iff it belongs to the caller and has at least one association
among the listed ids in each dimension that was given (OR within a
dimension, AND across dimensions), and the result is ordered by id
descending. -/
theorem recipe_id_filtering
    (db : Db) (u : UserId) (pt pi : Option String) (out : List Recipe)
    (h : listRecipes db u pt pi = some out) :
    (∀ r, r ∈ out ↔ r ∈ db.recipes ∧ r.user = u ∧
       (∀ s, pt = some s →
          ∃ l, paramToIds s = some l ∧ ∃ i ∈ l, i ∈ r.tags) ∧
       (∀ s, pi = some s →
          ∃ l, paramToIds s = some l ∧ ∃ i ∈ l, i ∈ r.ingredients)) ∧
    out.Pairwise (fun x y => y.id ≤ x.id) := by
  unfold listRecipes at h
  rcases pt with _ | s1 <;> rcases pi with _ | s2 <;>
    simp only [Option.map_some', Option.map_none'] at h
  · simp only [Option.some.injEq] at h
    subst h
    refine ⟨?_, sorted_listRecipesFiltered db u none none⟩
    intro r
    rw [mem_listRecipesFiltered]
    constructor
    · rintro ⟨h1, h2, -, -⟩
      exact ⟨h1, h2, by simp, by simp⟩
    · rintro ⟨h1, h2, -, -⟩
      exact ⟨h1, h2, by simp, by simp⟩
  · cases hp2 : paramToIds s2 with
    | none =>
      rw [hp2] at h
      exact absurd h (by simp)
    | some il =>
      rw [hp2] at h
      simp only [Option.some.injEq] at h
      subst h
      refine ⟨?_, sorted_listRecipesFiltered db u none (some il)⟩
      intro r
      rw [mem_listRecipesFiltered]
      constructor
      · rintro ⟨h1, h2, -, h4⟩
        refine ⟨h1, h2, by simp, ?_⟩
        intro s hs
        obtain rfl : s2 = s := by simpa using hs
        exact ⟨il, hp2, h4 il rfl⟩
      · rintro ⟨h1, h2, -, h4⟩
        refine ⟨h1, h2, by simp, ?_⟩
        intro l hl
        obtain rfl : il = l := by simpa using hl
        obtain ⟨l', hl', hcond⟩ := h4 s2 rfl
        obtain rfl : il = l' := by
          rw [hp2] at hl'
          simpa using hl'
        exact hcond
  · cases hp1 : paramToIds s1 with
    | none =>
      rw [hp1] at h
      exact absurd h (by simp)
    | some tl =>
      rw [hp1] at h
      simp only [Option.some.injEq] at h
      subst h
      refine ⟨?_, sorted_listRecipesFiltered db u (some tl) none⟩
      intro r
      rw [mem_listRecipesFiltered]
      constructor
      · rintro ⟨h1, h2, h3, -⟩
        refine ⟨h1, h2, ?_, by simp⟩
        intro s hs
        obtain rfl : s1 = s := by simpa using hs
        exact ⟨tl, hp1, h3 tl rfl⟩
      · rintro ⟨h1, h2, h3, -⟩
        refine ⟨h1, h2, ?_, by simp⟩
        intro l hl
        obtain rfl : tl = l := by simpa using hl
        obtain ⟨l', hl', hcond⟩ := h3 s1 rfl
        obtain rfl : tl = l' := by
          rw [hp1] at hl'
          simpa using hl'
        exact hcond
  · cases hp1 : paramToIds s1 with
    | none =>
      rw [hp1] at h
      exact absurd h (by simp)
    | some tl =>
      rw [hp1] at h
      cases hp2 : paramToIds s2 with
      | none =>
        rw [hp2] at h
        exact absurd h (by simp)
      | some il =>
        rw [hp2] at h
        simp only [Option.some.injEq] at h
        subst h
        refine ⟨?_, sorted_listRecipesFiltered db u (some tl) (some il)⟩
        intro r
        rw [mem_listRecipesFiltered]
        constructor
        · rintro ⟨h1, h2, h3, h4⟩
          refine ⟨h1, h2, ?_, ?_⟩
          · intro s hs
            obtain rfl : s1 = s := by simpa using hs
            exact ⟨tl, hp1, h3 tl rfl⟩
          · intro s hs
            obtain rfl : s2 = s := by simpa using hs
            exact ⟨il, hp2, h4 il rfl⟩
        · rintro ⟨h1, h2, h3, h4⟩
          refine ⟨h1, h2, ?_, ?_⟩
          · intro l hl
            obtain rfl : tl = l := by simpa using hl
            obtain ⟨l', hl', hcond⟩ := h3 s1 rfl
            obtain rfl : tl = l' := by
              rw [hp1] at hl'
              simpa using hl'
            exact hcond
          · intro l hl
            obtain rfl : il = l := by simpa using hl
            obtain ⟨l', hl', hcond⟩ := h4 s2 rfl
            obtain rfl : il = l' := by
              rw [hp2] at hl'
              simpa using hl'
            exact hcond

/-- Witness for C6: listing account 1's recipes in `dbW` filtered by tag
ids "1,2". -/
theorem recipe_id_filtering_witness :
    (∀ r, r ∈ [(⟨1, 1, "R1", 5, 10, "l", "d", [1], [1]⟩ : Recipe)] ↔
       r ∈ dbW.recipes ∧ r.user = 1 ∧
       (∀ s, (some "1,2" : Option String) = some s →
          ∃ l, paramToIds s = some l ∧ ∃ i ∈ l, i ∈ r.tags) ∧
       (∀ s, (none : Option String) = some s →
          ∃ l, paramToIds s = some l ∧ ∃ i ∈ l, i ∈ r.ingredients)) ∧
    ([(⟨1, 1, "R1", 5, 10, "l", "d", [1], [1]⟩ : Recipe)]).Pairwise
      (fun x y => y.id ≤ x.id) :=
  recipe_id_filtering dbW 1 (some "1,2") none
    [⟨1, 1, "R1", 5, 10, "l", "d", [1], [1]⟩] (by decide)

theorem tagNameGe_trans : ∀ x y z : Tag, tagNameGe x y = true →
    tagNameGe y z = true → tagNameGe x z = true :=
  fun _ _ _ hxy hyz => strLe_trans hyz hxy

theorem tagNameGe_total : ∀ x y : Tag,
    tagNameGe x y = true ∨ tagNameGe y x = true :=
  fun x y => (strLe_total y.name x.name).elim Or.inl Or.inr

theorem ingNameGe_trans : ∀ x y z : Ingredient, ingNameGe x y = true →
    ingNameGe y z = true → ingNameGe x z = true :=
  fun _ _ _ hxy hyz => strLe_trans hyz hxy

theorem ingNameGe_total : ∀ x y : Ingredient,
    ingNameGe x y = true ∨ ingNameGe y x = true :=
  fun x y => (strLe_total y.name x.name).elim Or.inl Or.inr

/-- C7: with a truthy `assigned_only` parameter, the tag (respectively
ingredient) listing returns exactly the caller's records referenced by at
least one of the caller's recipes, each record exactly once, ordered by
name descending under the byte-wise collation. -/
theorem assigned_only_unique_sorted (db : Db) (u : UserId) :
    (∀ t, t ∈ listTags db u true ↔
       t ∈ db.tags ∧ t.user = u ∧
       ∃ r ∈ db.recipes, r.user = u ∧ t.id ∈ r.tags) ∧
    (listTags db u true).Nodup ∧
    (listTags db u true).Pairwise
      (fun x y => strLe y.name x.name = true) ∧
    (∀ i, i ∈ listIngs db u true ↔
       i ∈ db.ingredients ∧ i.user = u ∧
       ∃ r ∈ db.recipes, r.user = u ∧ i.id ∈ r.ingredients) ∧
    (listIngs db u true).Nodup ∧
    (listIngs db u true).Pairwise
      (fun x y => strLe y.name x.name = true) := by
  refine ⟨?_, ?_, ?_, ?_, ?_, ?_⟩
  · intro t
    unfold listTags
    rw [mem_sortBy, List.mem_dedup]
    simp [List.mem_filter, List.any_eq_true, beq_iff_eq, and_assoc]
    tauto
  · exact nodup_sortBy (List.nodup_dedup _)
  · exact pairwise_sortBy tagNameGe_trans tagNameGe_total _
  · intro i
    unfold listIngs
    rw [mem_sortBy, List.mem_dedup]
    simp [List.mem_filter, List.any_eq_true, beq_iff_eq, and_assoc]
    tauto
  · exact nodup_sortBy (List.nodup_dedup _)
  · exact pairwise_sortBy ingNameGe_trans ingNameGe_total _

/-- C8: registration answers 201 with exactly `{id, email, name}` — the
password is never echoed — and creates exactly one account; it answers 400
when the email is already registered or the password is shorter than 5
characters, and in both failure cases the store is unchanged (no account
row is created). -/
theorem user_registration
    (db1 db2 db3 : Db) (e1 pw1 nm1 e2 pw2 nm2 e3 pw3 nm3 : String)
    (hdup : ∃ acc ∈ db1.accounts, acc.email = e1)
    (hshort : pw2.length < 5)
    (hnew : ¬ ∃ acc ∈ db3.accounts, acc.email = e3)
    (hlen : 5 ≤ pw3.length) :
    ((registerUser db1 e1 pw1 nm1).1.status = 400 ∧
     (registerUser db1 e1 pw1 nm1).2 = db1) ∧
    ((registerUser db2 e2 pw2 nm2).1.status = 400 ∧
     (registerUser db2 e2 pw2 nm2).2 = db2) ∧
    ((registerUser db3 e3 pw3 nm3).1.status = 201 ∧
     (registerUser db3 e3 pw3 nm3).1.body =
       [("id", toString db3.nextAccountId), ("email", e3), ("name", nm3)] ∧
     (∀ v, ("password", v) ∉ (registerUser db3 e3 pw3 nm3).1.body) ∧
     (registerUser db3 e3 pw3 nm3).2.accounts =
       db3.accounts ++ [⟨db3.nextAccountId, e3, hashPassword pw3, nm3⟩]) := by
  have hany1 : db1.accounts.any (fun a => a.email == e1) = true := by
    rw [List.any_eq_true]
    obtain ⟨acc, hacc, he⟩ := hdup
    exact ⟨acc, hacc, by simp [he]⟩
  have hany3 : db3.accounts.any (fun a => a.email == e3) = false := by
    rw [Bool.eq_false_iff]
    intro hc
    rw [List.any_eq_true] at hc
    obtain ⟨acc, hacc, he⟩ := hc
    exact hnew ⟨acc, hacc, by simpa using he⟩
  refine ⟨?_, ?_, ?_⟩
  · unfold registerUser
    rw [if_pos hany1]
    exact ⟨rfl, rfl⟩
  · unfold registerUser
    by_cases hany2 : db2.accounts.any (fun a => a.email == e2) = true
    · rw [if_pos hany2]
      exact ⟨rfl, rfl⟩
    · rw [if_neg hany2, if_pos hshort]
      exact ⟨rfl, rfl⟩
  · unfold registerUser
    rw [if_neg (by rw [hany3]; exact Bool.false_ne_true),
      if_neg (by omega)]
    refine ⟨rfl, rfl, ?_, rfl⟩
    intro v
    simp

/-- Witness for C8 against `dbW`: duplicate email, short password, and a
fresh valid registration. -/
theorem user_registration_witness :
    ((registerUser dbW "a@x.com" "random123" "A2").1.status = 400 ∧
     (registerUser dbW "a@x.com" "random123" "A2").2 = dbW) ∧
    ((registerUser dbW "c@x.com" "pw" "C").1.status = 400 ∧
     (registerUser dbW "c@x.com" "pw" "C").2 = dbW) ∧
    ((registerUser dbW "c@x.com" "random123" "C").1.status = 201 ∧
     (registerUser dbW "c@x.com" "random123" "C").1.body =
       [("id", toString dbW.nextAccountId), ("email", "c@x.com"),
        ("name", "C")] ∧
     (∀ v, ("password", v) ∉ (registerUser dbW "c@x.com" "random123"
        "C").1.body) ∧
     (registerUser dbW "c@x.com" "random123" "C").2.accounts =
       dbW.accounts ++
         [⟨dbW.nextAccountId, "c@x.com", hashPassword "random123", "C"⟩]) :=
  user_registration dbW dbW dbW "a@x.com" "random123" "A2" "c@x.com" "pw"
    "C" "c@x.com" "random123" "C" (by decide) (by decide) (by decide)
    (by decide)

end RecipeApi
